import Mathlib

/-!
Verification of the iniflags configuration library.

The development shallowly embeds the Go sources: Go strings are modeled as
lists of characters (`Str`), the Go standard string functions used by the
code are translated as executable Lean functions, and each iniflags function
is translated from the source.  The external flag registry is modeled as an
abstract store of string values together with the set of names that were
explicitly set (the set visited by flag.Visit).
-/

set_option maxRecDepth 10000

namespace Iniflags

/-- Go strings, modeled as lists of characters. -/
abbrev Str := List Char

/-- Go unicode.IsSpace restricted to the Latin-1 range (the only white-space
characters that can occur in the inputs considered here). -/
def isSpaceGo (c : Char) : Bool :=
  c = ' ' ∨ c = '\t' ∨ c = '\n' ∨ c = '\x0b' ∨ c = '\x0c' ∨ c = '\r' ∨
    c = '\x85' ∨ c = '\xa0'

/-- Go strings.TrimSpace, left part. -/
def trimLeft (s : Str) : Str := s.dropWhile isSpaceGo

/-- Go strings.TrimSpace, right part. -/
def trimRight (s : Str) : Str := (s.reverse.dropWhile isSpaceGo).reverse

/-- Go strings.TrimSpace. -/
def trimSpace (s : Str) : Str := trimRight (trimLeft s)

/-- Go strings.HasPrefix. -/
def strHasPre : Str → Str → Bool
  | [], _ => true
  | _ :: _, [] => false
  | a :: p, b :: s => a = b && strHasPre p s

/-- Go strings.HasSuffix. -/
def strHasSuf (p s : Str) : Bool := strHasPre p.reverse s.reverse

/-- Membership of a character in a Go string. -/
def containsC (c : Char) : Str → Bool
  | [] => false
  | d :: t => d = c || containsC c t

/-- Go strings.ContainsAny: some character of chars occurs in s. -/
def containsAnyC (s chars : Str) : Bool :=
  s.any (fun c => containsC c chars)

/-- Prefix of s before the first occurrence of c (Go strings.Split(s, c)[0]). -/
def takeUntilC (c : Char) : Str → Str
  | [] => []
  | d :: t => if d = c then [] else d :: takeUntilC c t

/-- Go strings.Split on a single-character separator. -/
def splitC (c : Char) : Str → List Str
  | [] => [[]]
  | d :: t =>
    match splitC c t with
    | [] => [[d]]
    | h :: r => if d = c then [] :: h :: r else (d :: h) :: r

/-- Go strings.LastIndex for a single-character needle: index of the last
occurrence, none when absent (Go returns -1). -/
def lastIndexC (c : Char) : Str → Option Nat
  | [] => none
  | d :: t =>
    match lastIndexC c t with
    | some k => some (k + 1)
    | none => if d = c then some 0 else none

/-- Go strings.SplitN(line, sep, 2) for a one-character separator: the part
before the first occurrence and the part after it; none when the separator
does not occur (Go then returns a single part). -/
def splitEq (c : Char) : Str → Option (Str × Str)
  | [] => none
  | d :: t =>
    if d = c then some ([], t)
    else (splitEq c t).map (fun p => (d :: p.1, p.2))

/-- Worker for replaceAll, structurally recursive on a fuel bound that is
kept at least the length of the remaining string (so the fuel-exhausted
arm is unreachable for the wrapper below). -/
def replaceAllF (pat rep : Str) : Nat → Str → Str
  | _, [] => []
  | 0, s => s
  | f + 1, d :: t =>
    if pat ≠ [] ∧ strHasPre pat (d :: t) then
      rep ++ replaceAllF pat rep f (t.drop (pat.length - 1))
    else
      d :: replaceAllF pat rep f t

/-- Go strings.Replace(s, pat, rep, -1): replace all occurrences, scanning
left to right, non-overlapping.  The source never calls it with an empty
pattern; an empty pattern is treated as matching nowhere. -/
def replaceAll (pat rep s : Str) : Str := replaceAllF pat rep s.length s

/-- Go strings.Replace(s, pat, rep, 1): replace only the first occurrence. -/
def replaceOnce (pat rep : Str) : Str → Str
  | [] => []
  | d :: t =>
    if pat ≠ [] ∧ strHasPre pat (d :: t) then
      rep ++ (d :: t).drop pat.length
    else
      d :: replaceOnce pat rep t

/-- The stripBOM function from the source: drop a leading byte-order mark on
the first line.  The source compares the first three bytes with the UTF-8
encodings of U+FEFF / U+FFFE; at character level this is a check of the
first character. -/
def stripBOM (s : Str) : Str :=
  match s with
  | c :: rest => if c = '﻿' ∨ c = '￾' then rest else s
  | [] => s

/-- The removeTrailingComments function from the source. -/
def removeTrailingComments (v : Str) : Str :=
  trimSpace (takeUntilC ';' (takeUntilC '#' v))

/-- The getTrailingComment function from the source: the segment between the
first and second occurrence of the comment marker, preferring #. -/
def getTrailingComment (v : Str) : Str :=
  match v with
  | [] => []
  | c :: _ =>
    if c = '"' then []
    else
      match splitC '#' v with
      | _ :: x :: _ => x
      | _ =>
        match splitC ';' v with
        | _ :: x :: _ => x
        | _ => []

/-- One character quoted in the style of Go fmt %q / strconv.Quote,
restricted to the ASCII-printable content that can reach this code path
(setting the trailing-comment field only). -/
def goQuoteChar (c : Char) : Str :=
  if c = '"' then ['\\', '"']
  else if c = '\\' then ['\\', '\\']
  else if c = '\n' then ['\\', 'n']
  else if c = '\t' then ['\\', 't']
  else if c = '\r' then ['\\', 'r']
  else [c]

/-- Go fmt.Sprintf("%q", v) (strconv.Quote) for ASCII-printable content. -/
def strconvQuote (v : Str) : Str :=
  '"' :: v.foldr (fun c acc => goQuoteChar c ++ acc) ['"']

/-- Result of unquoteValue.  The Go function returns (value, comment, ok);
unreachable runtime panics of the source (out-of-range slicing) are made
explicit as a separate outcome. -/
inductive UVRes where
  | ok (v c : Str)
  | err
  | crash
deriving Repr, DecidableEq

/-- The unquoteValue function from the source.  Note the slice v[1:n] of the
source panics when n = 0, i.e. when the only double quote of v is its first
character; that case is the crash outcome. -/
def unquoteValue (val : Str) : UVRes :=
  let v := trimSpace val
  match v with
  | [] => .ok [] []
  | c :: _ =>
    if c ≠ '"' then .ok (removeTrailingComments v) (getTrailingComment v)
    else
      match lastIndexC '"' v with
      | none => .err
      | some n =>
        if n < 1 then .crash
        else
          let v1 := (v.take n).drop 1
          let v2 := replaceAll ['\\', '"'] ['"'] v1
          let v3 := replaceAll ['\\', 'n'] ['\n'] v2
          let v4 := replaceAll ['\\', '\\'] ['\\'] v3
          let cmt := getTrailingComment (replaceOnce (strconvQuote v4) [] val)
          .ok v4 cmt

/-- The flagArg structure from the source: one parsed directive. -/
structure flagArg where
  Key : Str
  Value : Str
  FilePath : Str
  LineNum : Nat
  Comment : Str
deriving Repr, DecidableEq

/-- The zero value of flagArg (Go's var multilineFA flagArg). -/
def emptyFA : flagArg := ⟨[], [], [], 0, []⟩

/-- Result of openConfigFile as seen by its caller: Go returns a pair
(io.ReadCloser, error).  ok carries the stream content as the list of
lines delivered by bufio ReadString; errOpen is (nil, non-nil error);
nilStream is (nil, nil), which the source can return for an http response
with an unexpected status code. -/
inductive OpenRes where
  | ok (lines : List Str)
  | errOpen
  | nilStream
deriving Repr, DecidableEq

/-- Result of a parse: ok carries the directives; fail is the (nil, false)
return; crash is a Go runtime panic (reading a nil stream, or the
unquoteValue slice panic). -/
inductive PRes (α : Type) where
  | ok (a : α)
  | fail
  | crash
deriving Repr, DecidableEq

/-- Go strings.ToLower, character by character. -/
def toLowerGo (s : Str) : Str := s.map Char.toLower

/-- The isHTTP function from the source. -/
def isHTTP (p : Str) : Bool :=
  strHasPre "http://".toList (toLowerGo p) || strHasPre "https://".toList (toLowerGo p)

/-- The isSecure function from the source. -/
def isSecure (p : Str) : Bool :=
  strHasPre "https://".toList (toLowerGo p)

/-- The checkImportRecursion function from the source: false when the path is
already on the in-progress stack. -/
def checkImportRecursion (stack : List Str) (p : Str) : Bool :=
  match stack with
  | [] => true
  | q :: t => if q = p then false else checkImportRecursion t p

/-- The combinePath function from the source, parameterized by the external
libraries it calls: net/url reference resolution for http bases (none when
url.Parse fails) and path.Join/path.Dir for local relative paths. -/
def combinePath (urlResolve : Str → Str → Option Str) (pathJoinDir : Str → Str → Str)
    (basePath relPath : Str) : Option Str :=
  if isHTTP basePath then urlResolve basePath relPath
  else if relPath = [] ∨ relPath.head? = some '/' ∨ isHTTP relPath then some relPath
  else some (pathJoinDir basePath relPath)

/-- Static context of a parse: the open-config-file capability (file system
or http fetch), the allowMissingConfig flag, and the external path
libraries used by combinePath. -/
structure ParseEnv where
  openF : Str → OpenRes
  allowMissingConfig : Bool
  urlResolve : Str → Str → Option Str
  pathJoinDir : Str → Str → Str

/-- The body of getArgsFromConfig's read loop, one recursive step per line,
carrying the line counter, the pending comment buffer, the pending
multi-line directive and the accumulated directive list.  The recursive
parse used for import lines is passed in as gac. -/
def processLinesF (gac : Str → PRes (List flagArg)) (env : ParseEnv) (configPath : Str)
    (lineNum : Nat) (comment : Str) (multilineFA : flagArg) (lines : List Str)
    (args : List flagArg) : PRes (List flagArg) :=
  match lines with
  | [] =>
    if multilineFA.Key ≠ [] then .ok (args ++ [multilineFA]) else .ok args
  | line0 :: rest =>
    let lineNum1 := lineNum + 1
    let line1 := if lineNum1 = 1 then stripBOM line0 else line0
    let line := trimSpace line1
    if strHasPre "#import ".toList line then
      match unquoteValue (line.drop 7) with
      | .crash => .crash
      | .err => .fail
      | .ok impPath0 _ =>
        match combinePath env.urlResolve env.pathJoinDir configPath impPath0 with
        | none => .fail
        | some impPath =>
          match gac impPath with
          | .fail => .fail
          | .crash => .crash
          | .ok impArgs =>
            processLinesF gac env configPath lineNum1 comment multilineFA rest
              (args ++ impArgs)
    else if line = [] ∨ line.head? = some '[' then
      processLinesF gac env configPath lineNum1 [] multilineFA rest args
    else if line.head? = some '#' ∨ line.head? = some ';' then
      processLinesF gac env configPath lineNum1 (line.drop 1) multilineFA rest args
    else
      match splitEq '=' line with
      | none => .fail
      | some (p0, p1) =>
        let key := trimSpace p0
        match unquoteValue p1 with
        | .crash => .crash
        | .err => .fail
        | .ok value cmt =>
          let comment1 := if comment = [] then cmt else comment
          let fa : flagArg := ⟨key, value, configPath, lineNum1, comment1⟩
          if ¬ strHasSuf ['\x7d'] key then
            if multilineFA.Key ≠ [] then
              processLinesF gac env configPath lineNum1 [] emptyFA rest
                (args ++ [multilineFA] ++ [fa])
            else
              processLinesF gac env configPath lineNum1 [] multilineFA rest
                (args ++ [fa])
          else
            match lastIndexC '\x7b' key with
            | none => .fail
            | some n =>
              let base := key.take n
              let delim := (key.drop (n + 1)).dropLast
              if multilineFA.Key = [] then
                processLinesF gac env configPath lineNum1 [] { fa with Key := base }
                  rest args
              else if multilineFA.Key = base then
                processLinesF gac env configPath lineNum1 []
                  { multilineFA with Value := multilineFA.Value ++ delim ++ value } rest args
              else
                processLinesF gac env configPath lineNum1 [] { fa with Key := base }
                  rest (args ++ [multilineFA])

/-- The getArgsFromConfig function from the source.  The import stack is
passed explicitly (the source pushes on entry and pops in a defer); fuel
bounds the import nesting depth, decreasing by one at each import level,
and its exhaustion is unreachable for any fuel larger than that depth. -/
def getArgsFromConfig (env : ParseEnv) : Nat → List Str → Str → PRes (List flagArg)
  | fuel, stack, configPath =>
    if checkImportRecursion stack configPath then
      match env.openF configPath with
      | .errOpen => if env.allowMissingConfig then .ok [] else .fail
      | .nilStream => .crash
      | .ok lines =>
        match fuel with
        | 0 => .crash
        | f + 1 =>
          processLinesF (getArgsFromConfig env f (configPath :: stack)) env configPath
            0 [] emptyFA lines []
    else .fail

/-- One registered flag of the external registry: its name, default value,
usage text, and the registry's set-value operation (flag.Value.Set followed
by flag.Value.String: the canonical stored string on success, none when the
value is rejected). -/
structure FlagDef where
  name : Str
  defValue : Str
  usage : Str
  setVal : Str → Option Str

/-- Mutable registry state: current string value per flag name, and the set
of names explicitly set (the set flag.Visit enumerates). -/
structure RegState where
  values : List (Str × Str)
  actual : List Str
deriving DecidableEq

/-- Lookup of a registered flag by name (flag.Lookup). -/
def lookupFlag (defs : List FlagDef) (k : Str) : Option FlagDef :=
  match defs with
  | [] => none
  | d :: t => if d.name = k then some d else lookupFlag t k

/-- Lookup in a string-keyed association list. -/
def assocFind (l : List (Str × Str)) (k : Str) : Option Str :=
  match l with
  | [] => none
  | (q, w) :: t => if q = k then some w else assocFind t k

/-- Current string value of a flag (flag.Lookup(k).Value.String()). -/
def getValue (st : RegState) (k : Str) : Option Str :=
  assocFind st.values k

/-- Store a value under a key in an association list, replacing the first
binding or appending a new one. -/
def assocSet (k v : Str) : List (Str × Str) → List (Str × Str)
  | [] => [(k, v)]
  | (q, w) :: t => if q = k then (k, v) :: t else (q, w) :: assocSet k v t

/-- Direct value update (f.Value.Set on an already-looked-up flag): changes
the stored value only, never the explicitly-set set. -/
def setValueRaw (st : RegState) (k v : Str) : RegState :=
  { st with values := assocSet k v st.values }

/-- The top-level flag.Set(name, value) of the flag package: looks the flag
up, applies Value.Set, and on success records the flag as explicitly set.
The source ignores its error, so failure leaves the state unchanged. -/
def flagSet (defs : List FlagDef) (st : RegState) (k v : Str) : RegState :=
  match lookupFlag defs k with
  | none => st
  | some d =>
    match d.setVal v with
    | none => st
    | some w =>
      { values := assocSet k w st.values,
        actual := if k ∈ st.actual then st.actual else st.actual ++ [k] }

/-- The getMissingFlags function from the source: all registered names not
explicitly set. -/
def getMissingFlags (defs : List FlagDef) (st : RegState) : List Str :=
  (defs.map (fun d => d.name)).filter (fun n => !(decide (n ∈ st.actual)))

/-- Static context of one merge pass. -/
structure MergeCfg where
  defs : List FlagDef
  shorthands : List (Str × Str)
  allowUnknownFlags : Bool

/-- Key resolution of parseConfigFlags: direct flag lookup first, then the
shorthand table; the resolved key is the full flag name. -/
def resolveFlag (cfg : MergeCfg) (k : Str) : Option (Str × FlagDef) :=
  match lookupFlag cfg.defs k with
  | some d => some (k, d)
  | none =>
    match assocFind cfg.shorthands k with
    | none => none
    | some full =>
      match lookupFlag cfg.defs full with
      | none => none
      | some d => some (full, d)

/-- The directive loop of parseConfigFlags: threads the oldFlagValues map,
the ok flag and the registry state through the parsed directives. -/
def mergeLoop (cfg : MergeCfg) (missing : List Str) (args : List flagArg)
    (ofv : List (Str × Str)) (ok : Bool) (st : RegState) :
    List (Str × Str) × Bool × RegState :=
  match args with
  | [] => (ofv, ok, st)
  | arg :: rest =>
    match resolveFlag cfg arg.Key with
    | none =>
      mergeLoop cfg missing rest ofv (if cfg.allowUnknownFlags then ok else false) st
    | some (key, d) =>
      if key ∈ missing then
        let oldValue := (getValue st key).getD []
        if oldValue = arg.Value then mergeLoop cfg missing rest ofv ok st
        else
          match d.setVal arg.Value with
          | none => mergeLoop cfg missing rest ofv false st
          | some newV =>
            let st1 := setValueRaw st key newV
            let ofv1 := if oldValue ≠ newV then assocSet key oldValue ofv else ofv
            mergeLoop cfg missing rest ofv1 ok st1
      else mergeLoop cfg missing rest ofv ok st

/-- The restore loop of parseConfigFlags: flag.Set every recorded old value
back (the Go map iteration order is arbitrary; entries have distinct keys,
so the order cannot matter, and the list order is used). -/
def rollback (defs : List FlagDef) (ofv : List (Str × Str)) (st : RegState) : RegState :=
  ofv.foldl (fun s kv => flagSet defs s kv.1 kv.2) st

/-- The merge part of parseConfigFlags, applied to the directives parsed from
the config source: on failure every recorded old value is restored and nil
is returned for the map. -/
def mergePass (cfg : MergeCfg) (args : List flagArg) (st : RegState) :
    Option (List (Str × Str)) × Bool × RegState :=
  let missing := getMissingFlags cfg.defs st
  let r := mergeLoop cfg missing args [] true st
  if r.2.1 then (some r.1, true, r.2.2)
  else (none, false, rollback cfg.defs r.1 r.2.2)

/-- Keys recorded in the oldFlagValues map of a pass: the flags whose value
the pass changed at some point (the flags a failing pass rolls back). -/
def mergeTouched (cfg : MergeCfg) (args : List flagArg) (st : RegState) : List Str :=
  ((mergeLoop cfg (getMissingFlags cfg.defs st) args [] true st).1).map (fun kv => kv.1)

/-- Outcome of locating and parsing the config source, as consumed by the
merge: no config path configured, a parse failure, or the directive list.
The path resolution against the executable path and the file read are
handled by getArgsFromConfig and combinePath; this abstraction lets the
merge and reload layers be stated for any source outcome. -/
inductive Src where
  | noPath
  | bad
  | args (l : List flagArg)

/-- The parseConfigFlags function from the source over a source outcome:
empty path and unreadable source return without touching the registry. -/
def parseConfigFlagsSrc (cfg : MergeCfg) (s : Src) (st : RegState) :
    Option (List (Str × Str)) × Bool × RegState :=
  match s with
  | .noPath => (none, true, st)
  | .bad => (none, false, st)
  | .args l => mergePass cfg l st

/-- The parseConfigFlags function connected to the real parser: configPath is
the already-resolved path (the source resolves it against os.Args[0] first),
a failed parse returns ok=false with the registry untouched, and a parser
panic propagates. -/
def parseConfigFlagsFS (cfg : MergeCfg) (env : ParseEnv) (fuel : Nat) (configPath : Str)
    (st : RegState) : PRes (Option (List (Str × Str)) × Bool × RegState) :=
  if configPath = [] then .ok (none, true, st)
  else
    match getArgsFromConfig env fuel [] configPath with
    | .fail => .ok (none, false, st)
    | .crash => .crash
    | .ok l => .ok (mergePass cfg l st)

/-- Process-level state of the library: the registry, the Generation counter
and the parsed-once guard. -/
structure IniState where
  reg : RegState
  generation : Nat
  parsed : Bool
deriving DecidableEq

/-- Outcome of iniflags.Parse: normal completion, process exit (failed merge
exits 1, -dumpflags exits 0 before touching Generation), or the duplicate
call panic. -/
inductive ParseOutcome where
  | completed (s : IniState)
  | exited (code : Nat)
  | fatal
deriving DecidableEq

/-- The Parse function from the source.  Command-line intake (flag.Parse) is
the external registry capability; s.reg is the registry state after it.
On success Generation is incremented exactly once and the background
reloaders are started. -/
def Parse (cfg : MergeCfg) (src : Src) (dumpFl : Bool) (s : IniState) : ParseOutcome :=
  if s.parsed then .fatal
  else
    let r := parseConfigFlagsSrc cfg src s.reg
    if r.2.1 = false then .exited 1
    else if dumpFl then .exited 0
    else .completed { reg := r.2.2, generation := s.generation + 1, parsed := true }

/-- The updateConfig function from the source: one reload.  Generation is
incremented exactly when the pass succeeded and its oldFlagValues map is
non-empty. -/
def updateConfig (cfg : MergeCfg) (src : Src) (s : IniState) : IniState :=
  let r := parseConfigFlagsSrc cfg src s.reg
  if r.2.1 ∧ (r.1.getD []).length > 0 then
    { s with reg := r.2.2, generation := s.generation + 1 }
  else { s with reg := r.2.2 }

/-- A sequence of reloads (the configUpdater loop and the SIGHUP handler both
call updateConfig). -/
def runReloads (cfg : MergeCfg) (srcs : List Src) (s : IniState) : IniState :=
  srcs.foldl (fun t src => updateConfig cfg src t) s

/-- The quoteValue function from the source. -/
def quoteValue (v : Str) : Str :=
  if ¬ containsAnyC v "\n#;".toList ∧ trimSpace v = v then v
  else
    let v1 := replaceAll ['\\'] ['\\', '\\'] v
    let v2 := replaceAll ['\n'] ['\\', 'n'] v1
    let v3 := replaceAll ['"'] ['\\', '"'] v2
    '"' :: v3 ++ ['"']

/-- The characters escapeUsage deletes. -/
def escChars : List Char :=
  ['\t', '\x0b', '\x0c', '\x08', '\x07', '\\', '"', '²', '³', '¹',
   '⁰', '⁴', '⁵', '⁶', '⁷', '⁸', '⁹']

/-- The escapeUsage function from the source: newlines become comment
continuations, the listed characters are removed. -/
def escapeUsage (s : Str) : Str :=
  escChars.foldl (fun acc c => replaceAll [c] [] acc)
    (replaceAll ['\n'] "\n    # ".toList s)

/-- The dumpFlags function from the source: the text printed to stdout, one
entry per registered flag not in the exclusion set, in the enumeration
order of flag.VisitAll (defs is taken in that order). -/
def dumpFlags (defs : List FlagDef) (st : RegState) (excl : List Str) : Str :=
  match defs with
  | [] => []
  | d :: t =>
    (if d.name ∈ excl then [] else
      d.name ++ " = ".toList ++ quoteValue ((getValue st d.name).getD []) ++
        "  # ".toList ++ escapeUsage d.usage ++ ['\n']) ++
      dumpFlags t st excl

/-- The segments bufio ReadString('\n') delivers for a byte stream, without
their terminating newline (the read loop of getArgsFromConfig trims each
segment); a final empty segment is the EOF return and yields no line. -/
def splitLinesGo (s : Str) : List Str :=
  let parts := splitC '\n' s
  if parts.getLast? = some [] then parts.dropLast else parts

/-- The openConfigFile function from the source, parameterized by the two
external capabilities it uses: httpGet is net/http Get (none models a
non-nil transport error, some (statusCode, body) a response), osOpen is
os.Open (none a non-nil open error).  The result models Go's
(io.ReadCloser, error) pair as (stream content, error is non-nil).  Note
the unexpected-status branch of the source returns (nil, err) where err is
nil at that point. -/
def openConfigFile (httpGet : Str → Option (Nat × Str)) (osOpen : Str → Option Str)
    (unsecure : Bool) (path : Str) : Option Str × Bool :=
  if isHTTP path then
    if isSecure path ∨ unsecure then
      match httpGet path with
      | none => (none, true)
      | some (status, body) =>
        if status ≠ 200 then (none, false)
        else (some body, false)
    else (none, true)
  else
    match osOpen path with
    | none => (none, true)
    | some content => (some content, false)

/-- Keys of an association list. -/
def keysOf (l : List (Str × Str)) : List Str := l.map (fun kv => kv.1)

/-- The keys the directives of a pass resolve to (full flag names). -/
def resolvedKeys (cfg : MergeCfg) (args : List flagArg) : List Str :=
  args.filterMap (fun a => (resolveFlag cfg a.Key).map (fun p => p.1))

/-- A registry whose set-value operations accept their own outputs: setting
the canonical form of a previously accepted value succeeds and is the
identity.  This holds of Go flag.Value implementations, whose String
output is parseable by Set. -/
def SelfCanon (defs : List FlagDef) : Prop :=
  ∀ d ∈ defs, ∀ v w, d.setVal v = some w → d.setVal w = some w

/-- Well-formed registry state: every registered flag has a stored value and
that value is canonical (its own set-value fixed point). -/
def RegWF (defs : List FlagDef) (st : RegState) : Prop :=
  ∀ k d, lookupFlag defs k = some d → ∃ v, getValue st k = some v ∧ d.setVal v = some v

/-- A rollback-map entry whose value the registry will accept unchanged. -/
def CanonEntry (defs : List FlagDef) (kv : Str × Str) : Prop :=
  ∃ d, lookupFlag defs kv.1 = some d ∧ d.setVal kv.2 = some kv.2

/-- The registry state after a sequence of merge passes (the initial Parse
pass followed by reload passes all run the same mergePass). -/
def runMergePasses (cfg : MergeCfg) (passes : List (List flagArg)) (st : RegState) : RegState :=
  passes.foldl (fun t args => (mergePass cfg args t).2.2) st

/-- A file system fixture: association of paths with line lists. -/
def fsOpen (files : List (Str × List Str)) (p : Str) : OpenRes :=
  match files with
  | [] => .errOpen
  | (q, ls) :: t => if q = p then .ok ls else fsOpen t p

/-- URL resolution fixture: never used on local paths. -/
def noURL : Str → Str → Option Str := fun _ _ => none

/-- Path join fixture: never used when import paths are absolute. -/
def joinNaive : Str → Str → Str := fun _ r => r

/-- A flag value that accepts any string and stores it verbatim, like the
values created by flag.String. -/
def idSet : Str → Option Str := fun s => some s

/-- A flag value that rejects every string, to exercise SetValueError. -/
def rejectAll : Str → Option Str := fun _ => none

/-- A flag value that accepts strings of length at most one, to exercise a
registry rejection (SetValueError) while keeping short stored values. -/
def shortSet : Str → Option Str := fun s => if s.length ≤ 1 then some s else none

/-- Witness registry for the priority claims: one string-like flag. -/
def addrFD : FlagDef := ⟨"addr".toList, ":8080".toList, [], idSet⟩

/-- Witness merge configuration with the single addr flag. -/
def cfgW1 : MergeCfg := ⟨[addrFD], [], false⟩

/-- Witness registry state: addr was set on the command line. -/
def stW1 : RegState := ⟨[("addr".toList, "cli".toList)], ["addr".toList]⟩

/-- One reload pass that tries to override addr from a config file. -/
def passW1 : List (List flagArg) :=
  [[⟨"addr".toList, "other".toList, "/c".toList, 1, []⟩]]

/-- A verbatim string flag named x with default a. -/
def xFD : FlagDef := ⟨"x".toList, "a".toList, [], idSet⟩

/-- A length-restricted flag named y with default 0. -/
def yFD : FlagDef := ⟨"y".toList, "0".toList, [], shortSet⟩

/-- Merge configuration over x only, unknown flags disallowed. -/
def cfgC2 : MergeCfg := ⟨[xFD], [], false⟩

/-- State with x = a, nothing set on the command line. -/
def stC2 : RegState := ⟨[("x".toList, "a".toList)], []⟩

/-- A failing pass that changes x twice before hitting an unknown key. -/
def argsC2 : List flagArg :=
  [⟨"x".toList, "b".toList, "/c".toList, 1, []⟩,
   ⟨"x".toList, "c".toList, "/c".toList, 2, []⟩,
   ⟨"zz".toList, "1".toList, "/c".toList, 3, []⟩]

/-- Merge configuration over x and y, unknown flags disallowed. -/
def cfgXY : MergeCfg := ⟨[xFD, yFD], [], false⟩

/-- State with x = a and y = 0, nothing set on the command line. -/
def stXY : RegState := ⟨[("x".toList, "a".toList), ("y".toList, "0".toList)], []⟩

/-- A pass whose first directive is valid and applied (x = b) and whose
second directive is rejected by the registry (y = zzz is too long). -/
def argsXY : List flagArg :=
  [⟨"x".toList, "b".toList, "/c".toList, 1, []⟩,
   ⟨"y".toList, "zzz".toList, "/c".toList, 2, []⟩]

/-- The multi-line join scenario of the claim: one source with four joined
lines for the base name m. -/
def files4 : List (Str × List Str) :=
  [("/cfg".toList,
    ["m\x7b,\x7d=line1".toList, "m\x7b,\x7d=line2".toList,
     "m\x7b|\x7d=line3".toList, "m\x7b\x7d=line4".toList])]

/-- Parse environment over files4. -/
def env4 : ParseEnv := ⟨fsOpen files4, false, noURL, joinNaive⟩

/-- A source whose pending multi-line accumulation is flushed by a different
base name and then by a bare key. -/
def files4b : List (Str × List Str) :=
  [("/cfg".toList,
    ["m\x7b,\x7d=a".toList, "n\x7b,\x7d=b".toList, "x=c".toList])]

/-- Parse environment over files4b. -/
def env4b : ParseEnv := ⟨fsOpen files4b, false, noURL, joinNaive⟩

/-- The import precedence scenario: a base file defining two flags, a main
file importing it with a hash marker and then overriding flag2, and a file
using a semicolon before the word import. -/
def files5 : List (Str × List Str) :=
  [("/base".toList, ["flag1=value1".toList, "flag2=value2".toList]),
   ("/main".toList, ["#import \"/base\"".toList, "flag2=foobar".toList]),
   ("/semi".toList, [";import \"/base\"".toList])]

/-- Parse environment over files5. -/
def env5 : ParseEnv := ⟨fsOpen files5, false, noURL, joinNaive⟩

/-- The directives the hash-marker import file parses to. -/
def args5 : List flagArg :=
  [⟨"flag1".toList, "value1".toList, "/base".toList, 1, []⟩,
   ⟨"flag2".toList, "value2".toList, "/base".toList, 2, []⟩,
   ⟨"flag2".toList, "foobar".toList, "/main".toList, 2, []⟩]

/-- Registered flag1 with its default. -/
def f1FD : FlagDef := ⟨"flag1".toList, "default1".toList, [], idSet⟩

/-- Registered flag2 with its default. -/
def f2FD : FlagDef := ⟨"flag2".toList, "default2".toList, [], idSet⟩

/-- Merge configuration over flag1 and flag2. -/
def cfg5 : MergeCfg := ⟨[f1FD, f2FD], [], false⟩

/-- Freshly-defaulted registry for flag1 and flag2. -/
def st5 : RegState :=
  ⟨[("flag1".toList, "default1".toList), ("flag2".toList, "default2".toList)], []⟩

/-- The cyclic import scenario: /a imports /b which imports /a. -/
def files7 : List (Str × List Str) :=
  [("/a".toList, ["#import \"/b\"".toList, "x=1".toList]),
   ("/b".toList, ["#import \"/a\"".toList])]

/-- Parse environment over files7. -/
def env7 : ParseEnv := ⟨fsOpen files7, false, noURL, joinNaive⟩

/-- An http fetch that always answers with status 500 and an empty body. -/
def get500 : Str → Option (Nat × Str) := fun _ => some (500, [])

/-- An http fetch that always answers 200 with the body "body". -/
def getOK : Str → Option (Nat × Str) := fun _ => some (200, "body".toList)

/-- A local file system with no readable files. -/
def noOpen : Str → Option Str := fun _ => none

/-- A flag name the INI writer and parser can round-trip: nonempty, free of
surrounding white space, of = and newline, not shaped like a comment,
section, byte-order mark or multi-line key.  All ordinary Go flag names
satisfy this. -/
def NiceName (n : Str) : Prop :=
  n ≠ [] ∧ trimLeft n = n ∧ trimRight n = n ∧ '=' ∉ n ∧ '\n' ∉ n ∧
    strHasSuf ['\x7d'] n = false ∧
    n.head? ≠ some '#' ∧ n.head? ≠ some ';' ∧ n.head? ≠ some '[' ∧
    n.head? ≠ some '﻿' ∧ n.head? ≠ some '￾'

instance (n : Str) : Decidable (NiceName n) := by
  unfold NiceName
  infer_instance

/-- A flag value the dump format can round-trip: backslash-free, and when
quoteValue leaves it bare (no newline, hash or semicolon, and no
surrounding white space) it must not begin with a double quote. -/
def SafeVal (v : Str) : Prop :=
  '\\' ∉ v ∧
    ((¬ containsAnyC v "\n#;".toList = true ∧ trimSpace v = v) → v.head? ≠ some '"')

instance (v : Str) : Decidable (SafeVal v) := by
  unfold SafeVal
  infer_instance

/-- The header dumpFlags emits for one flag, without the newline. -/
def dumpLine (st : RegState) (d : FlagDef) : Str :=
  d.name ++ " = ".toList ++ quoteValue ((getValue st d.name).getD []) ++
    "  # ".toList ++ escapeUsage d.usage

/-- The key/value pairs the dump of a registry state carries. -/
def dumpPairs (defs : List FlagDef) (st : RegState) (excl : List Str) :
    List (Str × Str) :=
  (defs.filter (fun d => !(decide (d.name ∈ excl)))).map
    (fun d => (d.name, (getValue st d.name).getD []))

/-- A flag whose dump-time value begins with a double quote, for the
round-trip counterexample. -/
def qFD : FlagDef := ⟨"q".toList, "d".toList, [], idSet⟩

/-- Merge configuration over the single flag q. -/
def cfgQ : MergeCfg := ⟨[qFD], [], false⟩

/-- Dump-time state: q holds the three-character value "a" including the
double quotes. -/
def stQdump : RegState := ⟨[("q".toList, "\"a\"".toList)], []⟩

/-- Freshly-defaulted state for q. -/
def stQfresh : RegState := ⟨[("q".toList, "d".toList)], []⟩

/-- The dump of stQdump. -/
def dumpQ : Str := dumpFlags [qFD] stQdump []

/-- Parse environment serving the dump of stQdump as a config source. -/
def envQ : ParseEnv :=
  ⟨fsOpen [("/d".toList, splitLinesGo dumpQ)], false, noURL, joinNaive⟩

/-- The value q holds after the dump of stQdump is re-parsed and merged into
the freshly-defaulted registry (none when the parse or the merge failed). -/
def reparsedQValue : Option Str :=
  match getArgsFromConfig envQ 1 [] "/d".toList with
  | PRes.ok out =>
    if (mergePass cfgQ out stQfresh).2.1 then
      getValue (mergePass cfgQ out stQfresh).2.2 "q".toList
    else none
  | _ => none

/-- A round-trip-able flag alpha holding a value with interior spaces. -/
def aFD : FlagDef := ⟨"alpha".toList, [], "first flag".toList, idSet⟩

/-- A round-trip-able flag beta whose value forces the quoted dump form. -/
def bFD : FlagDef := ⟨"beta".toList, [], "second flag".toList, idSet⟩

/-- Merge configuration over alpha and beta. -/
def cfgRT : MergeCfg := ⟨[aFD, bFD], [], false⟩

/-- Dump-time registry state for the round-trip witness. -/
def stRT : RegState :=
  ⟨[("alpha".toList, "hello world".toList), ("beta".toList, "x; y".toList)], []⟩

/-- Freshly-defaulted registry state for the round-trip witness. -/
def stRTf : RegState :=
  ⟨[("alpha".toList, []), ("beta".toList, [])], []⟩

/-- Parse environment serving the dump of stRT as the config source /rt. -/
def envRT : ParseEnv :=
  ⟨fsOpen [("/rt".toList, splitLinesGo (dumpFlags cfgRT.defs stRT []))],
    false, noURL, joinNaive⟩

/-- lastIndexC finds an index whenever the string starts with the needle. -/
theorem lastIndexC_cons_self (c : Char) (t : Str) :
    lastIndexC c (c :: t) ≠ none := by
  simp only [lastIndexC]
  cases lastIndexC c t with
  | some k => simp
  | none => simp

/-- C8: the claim says every value that starts with a double quote but has no
closing quote makes unquoteValue take the unclosed-string error branch.  In
the code that branch is unreachable: LastIndex always finds the opening
quote, and the subsequent slice v[1:0] panics instead. -/
theorem unquoteValue_unterminated_crashes :
    unquoteValue ("\"abc".toList) = UVRes.crash ∧
      ∀ val : Str, unquoteValue val ≠ UVRes.err := by
  constructor
  · decide
  · intro val
    simp only [unquoteValue]
    cases hv : trimSpace val with
    | nil => simp
    | cons c t =>
      dsimp only
      by_cases hc : c = '"'
      · subst hc
        have hne : ¬(('"' : Char) ≠ '"') := fun h => h rfl
        rw [if_neg hne]
        cases hli : lastIndexC '"' ('"' :: t) with
        | none => exact absurd hli (lastIndexC_cons_self _ _)
        | some n =>
          by_cases hn : n < 1 <;> simp [hli, hn]
      · simp [hc]

theorem assocFind_assocSet_self (k v : Str) (l : List (Str × Str)) :
    assocFind (assocSet k v l) k = some v := by
  induction l with
  | nil => simp [assocSet, assocFind]
  | cons hd t ih =>
    obtain ⟨q, w⟩ := hd
    by_cases h : q = k
    · subst h; simp [assocSet, assocFind]
    · simp [assocSet, assocFind, h, ih]

theorem assocFind_assocSet_ne (k v n : Str) (l : List (Str × Str)) (h : n ≠ k) :
    assocFind (assocSet k v l) n = assocFind l n := by
  induction l with
  | nil =>
    simp only [assocSet, assocFind]
    rw [if_neg (Ne.symm h)]
  | cons hd t ih =>
    obtain ⟨q, w⟩ := hd
    by_cases hq : q = k
    · subst hq
      simp only [assocSet, if_pos rfl, assocFind]
      rw [if_neg (Ne.symm h), if_neg (Ne.symm h)]
    · simp only [assocSet, if_neg hq, assocFind, ih]

theorem mem_keysOf_assocSet (k v n : Str) (l : List (Str × Str)) :
    n ∈ keysOf (assocSet k v l) ↔ n ∈ keysOf l ∨ n = k := by
  induction l with
  | nil => simp [assocSet, keysOf, eq_comm]
  | cons hd t ih =>
    obtain ⟨q, w⟩ := hd
    by_cases hq : q = k
    · subst hq; simp [assocSet, keysOf, eq_comm]; tauto
    · simp [assocSet, hq, keysOf] at ih ⊢
      tauto

theorem assocSet_of_not_mem (k v : Str) :
    ∀ l : List (Str × Str), k ∉ keysOf l → assocSet k v l = l ++ [(k, v)] := by
  intro l
  induction l with
  | nil => intro _; simp [assocSet]
  | cons hd t ih =>
    intro h
    obtain ⟨q, w⟩ := hd
    simp only [keysOf, List.map_cons, List.mem_cons] at h
    push_neg at h
    simp only [assocSet, if_neg (Ne.symm h.1), List.cons_append]
    rw [ih (by simpa [keysOf] using h.2)]

theorem nodup_keysOf_assocSet (k v : Str) :
    ∀ l : List (Str × Str), (keysOf l).Nodup → (keysOf (assocSet k v l)).Nodup := by
  intro l
  induction l with
  | nil => intro _; simp [assocSet, keysOf]
  | cons hd t ih =>
    intro h
    obtain ⟨q, w⟩ := hd
    simp only [keysOf, List.map_cons, List.nodup_cons] at h
    by_cases hq : q = k
    · subst hq
      have hred : assocSet q v ((q, w) :: t) = (q, v) :: t := by simp [assocSet]
      rw [hred]
      simp only [keysOf, List.map_cons, List.nodup_cons]
      exact ⟨by simpa [keysOf] using h.1, by simpa [keysOf] using h.2⟩
    · simp only [assocSet, if_neg hq, keysOf, List.map_cons, List.nodup_cons]
      refine ⟨?_, by simpa [keysOf] using ih (by simpa [keysOf] using h.2)⟩
      intro hcon
      rcases (mem_keysOf_assocSet k v q t).1 (by simpa [keysOf] using hcon) with hc | hc
      · exact h.1 (by simpa [keysOf] using hc)
      · exact hq hc

theorem getValue_setValueRaw_self (st : RegState) (k v : Str) :
    getValue (setValueRaw st k v) k = some v :=
  assocFind_assocSet_self k v st.values

theorem getValue_setValueRaw_ne (st : RegState) (k v n : Str) (h : n ≠ k) :
    getValue (setValueRaw st k v) n = getValue st n :=
  assocFind_assocSet_ne k v n st.values h

theorem getValue_setValueRaw_id (st : RegState) (k v : Str)
    (h : getValue st k = some v) (n : Str) :
    getValue (setValueRaw st k v) n = getValue st n := by
  by_cases hn : n = k
  · subst hn; rw [getValue_setValueRaw_self, h]
  · exact getValue_setValueRaw_ne st k v n hn

theorem setValueRaw_actual (st : RegState) (k v : Str) :
    (setValueRaw st k v).actual = st.actual := rfl

theorem lookupFlag_mem (defs : List FlagDef) (k : Str) (d : FlagDef)
    (h : lookupFlag defs k = some d) : d ∈ defs := by
  induction defs with
  | nil => simp [lookupFlag] at h
  | cons e t ih =>
    simp only [lookupFlag] at h
    by_cases he : e.name = k
    · rw [if_pos he] at h
      exact (Option.some.injEq _ _ ▸ h) ▸ List.mem_cons_self e t
    · rw [if_neg he] at h
      exact List.mem_cons_of_mem e (ih h)

theorem lookupFlag_name (defs : List FlagDef) (k : Str) (d : FlagDef)
    (h : lookupFlag defs k = some d) : d.name = k := by
  induction defs with
  | nil => simp [lookupFlag] at h
  | cons e t ih =>
    simp only [lookupFlag] at h
    by_cases he : e.name = k
    · rw [if_pos he] at h
      cases h; exact he
    · rw [if_neg he] at h
      exact ih h

theorem lookupFlag_of_mem_names (defs : List FlagDef) (k : Str)
    (h : k ∈ defs.map (fun d => d.name)) : ∃ d, lookupFlag defs k = some d := by
  induction defs with
  | nil => simp at h
  | cons e t ih =>
    simp only [List.map_cons, List.mem_cons] at h
    by_cases he : e.name = k
    · exact ⟨e, by simp [lookupFlag, he]⟩
    · rcases h with h | h
      · exact absurd h.symm he
      · obtain ⟨d, hd⟩ := ih h
        exact ⟨d, by simp [lookupFlag, he, hd]⟩

theorem flagSet_actual_mono (defs : List FlagDef) (st : RegState) (k v n : Str)
    (h : n ∈ st.actual) : n ∈ (flagSet defs st k v).actual := by
  unfold flagSet
  cases lookupFlag defs k with
  | none => exact h
  | some d =>
    dsimp only
    cases d.setVal v with
    | none => exact h
    | some w =>
      dsimp only
      by_cases hk : k ∈ st.actual
      · simpa [hk] using h
      · simp only [if_neg hk]
        exact List.mem_append_left _ h

theorem flagSet_getValue_ne (defs : List FlagDef) (st : RegState) (k v n : Str)
    (h : n ≠ k) : getValue (flagSet defs st k v) n = getValue st n := by
  unfold flagSet
  cases lookupFlag defs k with
  | none => rfl
  | some d =>
    dsimp only
    cases d.setVal v with
    | none => rfl
    | some w => exact assocFind_assocSet_ne k w n st.values h

theorem flagSet_success (defs : List FlagDef) (st : RegState) (k v : Str) (d : FlagDef)
    (hd : lookupFlag defs k = some d) (hv : d.setVal v = some v) :
    getValue (flagSet defs st k v) k = some v ∧ k ∈ (flagSet defs st k v).actual := by
  simp only [flagSet, hd, hv]
  refine ⟨assocFind_assocSet_self k v st.values, ?_⟩
  by_cases hk : k ∈ st.actual
  · simp [hk]
  · simp [hk]

theorem rollback_actual_mono (defs : List FlagDef) (ofv : List (Str × Str)) :
    ∀ st n, n ∈ st.actual → n ∈ (rollback defs ofv st).actual := by
  induction ofv with
  | nil => intro st n h; exact h
  | cons kv t ih =>
    intro st n h
    exact ih _ n (flagSet_actual_mono defs st kv.1 kv.2 n h)

theorem rollback_getValue_off (defs : List FlagDef) (ofv : List (Str × Str)) :
    ∀ st n, n ∉ keysOf ofv → getValue (rollback defs ofv st) n = getValue st n := by
  induction ofv with
  | nil => intro st n _; rfl
  | cons kv t ih =>
    intro st n h
    simp only [keysOf, List.map_cons, List.mem_cons] at h
    push_neg at h
    rw [rollback, List.foldl_cons]
    have := ih (flagSet defs st kv.1 kv.2) n (by simpa [keysOf] using h.2)
    rw [rollback] at this
    rw [this, flagSet_getValue_ne defs st kv.1 kv.2 n h.1]

theorem rollback_restores (defs : List FlagDef) (ofv : List (Str × Str)) :
    ∀ st, (keysOf ofv).Nodup → (∀ kv ∈ ofv, CanonEntry defs kv) →
    ∀ kv ∈ ofv, getValue (rollback defs ofv st) kv.1 = some kv.2 ∧
      kv.1 ∈ (rollback defs ofv st).actual := by
  induction ofv with
  | nil => intro st _ _ kv hkv; simp at hkv
  | cons e t ih =>
    intro st hnd hc kv hkv
    simp only [keysOf, List.map_cons, List.nodup_cons] at hnd
    obtain ⟨d, hd, hset⟩ := hc e (List.mem_cons_self e t)
    rcases List.mem_cons.1 hkv with hkv | hkv
    · subst hkv
      have hsucc := flagSet_success defs st kv.1 kv.2 d hd hset
      rw [rollback, List.foldl_cons]
      constructor
      · have := rollback_getValue_off defs t (flagSet defs st kv.1 kv.2) kv.1
          (by simpa [keysOf] using hnd.1)
        rw [rollback] at this
        rw [this]
        exact hsucc.1
      · have := rollback_actual_mono defs t (flagSet defs st kv.1 kv.2) kv.1 hsucc.2
        rw [rollback] at this
        exact this
    · rw [rollback, List.foldl_cons]
      have := ih (flagSet defs st e.1 e.2) hnd.2
        (fun kv2 hkv2 => hc kv2 (List.mem_cons_of_mem e hkv2)) kv hkv
      rw [rollback] at this
      exact this

theorem resolveFlag_lookup (cfg : MergeCfg) (k key : Str) (d : FlagDef)
    (h : resolveFlag cfg k = some (key, d)) : lookupFlag cfg.defs key = some d := by
  unfold resolveFlag at h
  cases h1 : lookupFlag cfg.defs k with
  | some d1 =>
    rw [h1] at h
    dsimp only at h
    cases h
    exact h1
  | none =>
    rw [h1] at h
    dsimp only at h
    cases h2 : assocFind cfg.shorthands k with
    | none => rw [h2] at h; exact absurd h (by simp)
    | some full =>
      rw [h2] at h
      dsimp only at h
      cases h3 : lookupFlag cfg.defs full with
      | none => rw [h3] at h; exact absurd h (by simp)
      | some d1 =>
        rw [h3] at h
        dsimp only at h
        cases h
        exact h3

theorem mergeLoop_spec (cfg : MergeCfg) (missing : List Str) :
    ∀ (args : List flagArg) (ofv : List (Str × Str)) (ok : Bool) (st : RegState),
    (mergeLoop cfg missing args ofv ok st).2.2.actual = st.actual ∧
    (∀ n, n ∉ missing →
      getValue (mergeLoop cfg missing args ofv ok st).2.2 n = getValue st n) ∧
    (∀ k, k ∈ keysOf (mergeLoop cfg missing args ofv ok st).1 →
      k ∈ missing ∨ k ∈ keysOf ofv) ∧
    ((keysOf ofv).Nodup → (keysOf (mergeLoop cfg missing args ofv ok st).1).Nodup) := by
  intro args
  induction args with
  | nil =>
    intro ofv ok st
    exact ⟨rfl, fun n _ => rfl, fun k hk => Or.inr hk, fun h => h⟩
  | cons arg rest ih =>
    intro ofv ok st
    cases hres : resolveFlag cfg arg.Key with
    | none =>
      simp only [mergeLoop, hres]
      exact ih ofv _ st
    | some pr =>
      obtain ⟨key, d⟩ := pr
      simp only [mergeLoop, hres]
      by_cases hkey : key ∈ missing
      · rw [if_pos hkey]
        by_cases heq : (getValue st key).getD [] = arg.Value
        · rw [if_pos heq]
          exact ih ofv ok st
        · rw [if_neg heq]
          cases hsv : d.setVal arg.Value with
          | none => exact ih ofv false st
          | some newV =>
            dsimp only
            by_cases hnv : (getValue st key).getD [] ≠ newV
            · rw [if_pos hnv]
              obtain ⟨ha, hv, hk, hnd⟩ :=
                ih (assocSet key ((getValue st key).getD []) ofv) ok (setValueRaw st key newV)
              refine ⟨by rw [ha]; rfl, ?_, ?_, ?_⟩
              · intro n hn
                rw [hv n hn,
                  getValue_setValueRaw_ne st key newV n (fun hnk => hn (hnk ▸ hkey))]
              · intro k hk2
                rcases hk k hk2 with h | h
                · exact Or.inl h
                · rcases (mem_keysOf_assocSet key _ k ofv).1 h with h1 | h1
                  · exact Or.inr h1
                  · exact Or.inl (h1 ▸ hkey)
              · intro hndofv
                exact hnd (nodup_keysOf_assocSet key _ ofv hndofv)
            · rw [if_neg hnv]
              obtain ⟨ha, hv, hk, hnd⟩ := ih ofv ok (setValueRaw st key newV)
              refine ⟨by rw [ha]; rfl, ?_, hk, hnd⟩
              intro n hn
              rw [hv n hn,
                getValue_setValueRaw_ne st key newV n (fun hnk => hn (hnk ▸ hkey))]
      · rw [if_neg hkey]
        exact ih ofv ok st

theorem getMissingFlags_not_mem (defs : List FlagDef) (st : RegState) (n : Str)
    (h : n ∈ st.actual) : n ∉ getMissingFlags defs st := by
  intro hmem
  rw [getMissingFlags, List.mem_filter] at hmem
  simp only [Bool.not_eq_true', decide_eq_false_iff_not] at hmem
  exact hmem.2 h

theorem mergePass_preserves (cfg : MergeCfg) (args : List flagArg) (st : RegState)
    (n : Str) (h : n ∈ st.actual) :
    getValue (mergePass cfg args st).2.2 n = getValue st n ∧
      n ∈ (mergePass cfg args st).2.2.actual := by
  obtain ⟨ha, hv, hk, _⟩ := mergeLoop_spec cfg (getMissingFlags cfg.defs st) args [] true st
  have hnm : n ∉ getMissingFlags cfg.defs st := getMissingFlags_not_mem _ _ _ h
  simp only [mergePass]
  cases hok : (mergeLoop cfg (getMissingFlags cfg.defs st) args [] true st).2.1 with
  | true =>
    rw [if_pos rfl]
    exact ⟨hv n hnm, ha ▸ h⟩
  | false =>
    rw [if_neg Bool.false_ne_true]
    have hnk : n ∉ keysOf (mergeLoop cfg (getMissingFlags cfg.defs st) args [] true st).1 := by
      intro hc
      rcases hk n hc with hc1 | hc1
      · exact hnm hc1
      · simp [keysOf] at hc1
    constructor
    · rw [rollback_getValue_off cfg.defs _ _ n hnk, hv n hnm]
    · exact rollback_actual_mono cfg.defs _ _ n (ha ▸ h)

theorem runMergePasses_preserves (cfg : MergeCfg) :
    ∀ (passes : List (List flagArg)) (st : RegState) (n : Str), n ∈ st.actual →
    getValue (runMergePasses cfg passes st) n = getValue st n ∧
      n ∈ (runMergePasses cfg passes st).actual := by
  intro passes
  induction passes with
  | nil => intro st n h; exact ⟨rfl, h⟩
  | cons p rest ih =>
    intro st n h
    have h1 := mergePass_preserves cfg p st n h
    have h2 := ih (mergePass cfg p st).2.2 n h1.2
    rw [runMergePasses, List.foldl_cons]
    rw [runMergePasses] at h2
    exact ⟨h2.1.trans h1.1, h2.2⟩

theorem mem_assocSet (k v : Str) :
    ∀ (l : List (Str × Str)) (kv : Str × Str),
    kv ∈ assocSet k v l → kv ∈ l ∨ kv = (k, v) := by
  intro l
  induction l with
  | nil => intro kv h; simp [assocSet] at h; exact Or.inr h
  | cons hd t ih =>
    intro kv h
    obtain ⟨q, w⟩ := hd
    by_cases hq : q = k
    · subst hq
      have hred : assocSet q v ((q, w) :: t) = (q, v) :: t := by simp [assocSet]
      rw [hred] at h
      rcases List.mem_cons.1 h with h | h
      · exact Or.inr h
      · exact Or.inl (List.mem_cons_of_mem _ h)
    · simp only [assocSet, if_neg hq, List.mem_cons] at h
      rcases h with h | h
      · exact Or.inl (h ▸ List.mem_cons_self _ _)
      · rcases ih kv h with h1 | h1
        · exact Or.inl (List.mem_cons_of_mem _ h1)
        · exact Or.inr h1

theorem resolvedKeys_cons_some (cfg : MergeCfg) (arg : flagArg) (rest : List flagArg)
    (key : Str) (d : FlagDef) (h : resolveFlag cfg arg.Key = some (key, d)) :
    resolvedKeys cfg (arg :: rest) = key :: resolvedKeys cfg rest := by
  simp [resolvedKeys, h]

theorem resolvedKeys_cons_none (cfg : MergeCfg) (arg : flagArg) (rest : List flagArg)
    (h : resolveFlag cfg arg.Key = none) :
    resolvedKeys cfg (arg :: rest) = resolvedKeys cfg rest := by
  simp [resolvedKeys, h]

theorem mem_resolvedKeys_lookup (cfg : MergeCfg) (args : List flagArg) (k : Str)
    (h : k ∈ resolvedKeys cfg args) : ∃ d, lookupFlag cfg.defs k = some d := by
  rw [resolvedKeys, List.mem_filterMap] at h
  obtain ⟨a, _, ha⟩ := h
  cases hres : resolveFlag cfg a.Key with
  | none => rw [hres] at ha; simp at ha
  | some pr =>
    rw [hres] at ha
    obtain ⟨key, d⟩ := pr
    simp only [Option.map_some'] at ha
    cases ha
    exact ⟨d, resolveFlag_lookup cfg a.Key _ d hres⟩

theorem mergeLoop_canon (cfg : MergeCfg) (missing : List Str) (hsc : SelfCanon cfg.defs) :
    ∀ (args : List flagArg) (ofv : List (Str × Str)) (ok : Bool) (st : RegState),
    RegWF cfg.defs st → (∀ kv ∈ ofv, CanonEntry cfg.defs kv) →
    RegWF cfg.defs (mergeLoop cfg missing args ofv ok st).2.2 ∧
    (∀ kv ∈ (mergeLoop cfg missing args ofv ok st).1, CanonEntry cfg.defs kv) := by
  intro args
  induction args with
  | nil => intro ofv ok st hwf hofv; exact ⟨hwf, hofv⟩
  | cons arg rest ih =>
    intro ofv ok st hwf hofv
    cases hres : resolveFlag cfg arg.Key with
    | none =>
      simp only [mergeLoop, hres]
      exact ih ofv _ st hwf hofv
    | some pr =>
      obtain ⟨key, d⟩ := pr
      have hlk : lookupFlag cfg.defs key = some d := resolveFlag_lookup cfg arg.Key key d hres
      have hdm : d ∈ cfg.defs := lookupFlag_mem _ _ _ hlk
      simp only [mergeLoop, hres]
      by_cases hkey : key ∈ missing
      · rw [if_pos hkey]
        by_cases heq : (getValue st key).getD [] = arg.Value
        · rw [if_pos heq]; exact ih ofv ok st hwf hofv
        · rw [if_neg heq]
          cases hsv : d.setVal arg.Value with
          | none => exact ih ofv false st hwf hofv
          | some newV =>
            dsimp only
            have hwf1 : RegWF cfg.defs (setValueRaw st key newV) := by
              intro k1 d1 hk1
              by_cases hkk : k1 = key
              · subst hkk
                rw [hlk] at hk1
                cases hk1
                exact ⟨newV, getValue_setValueRaw_self st k1 newV,
                  hsc d hdm arg.Value newV hsv⟩
              · obtain ⟨v1, hv1, hc1⟩ := hwf k1 d1 hk1
                exact ⟨v1, by rw [getValue_setValueRaw_ne st key newV k1 hkk]; exact hv1, hc1⟩
            by_cases hnv : (getValue st key).getD [] ≠ newV
            · rw [if_pos hnv]
              apply ih _ ok _ hwf1
              intro kv hkv
              rcases mem_assocSet key _ ofv kv hkv with h1 | h1
              · exact hofv kv h1
              · obtain ⟨v0, hv0, hc0⟩ := hwf key d hlk
                subst h1
                refine ⟨d, hlk, ?_⟩
                simp only [hv0, Option.getD_some]
                exact hc0
            · rw [if_neg hnv]
              exact ih ofv ok _ hwf1 hofv
      · rw [if_neg hkey]
        exact ih ofv ok st hwf hofv

theorem mergeLoop_once (cfg : MergeCfg) (missing : List Str) :
    ∀ (args : List flagArg) (ofv : List (Str × Str)) (ok : Bool) (st : RegState),
    (resolvedKeys cfg args).Nodup →
    (∀ k ∈ resolvedKeys cfg args, k ∉ keysOf ofv) →
    (∀ k ∈ resolvedKeys cfg args, ∃ v, getValue st k = some v) →
    (∀ k ∈ keysOf ofv, k ∈ keysOf (mergeLoop cfg missing args ofv ok st).1) ∧
    (∀ kv ∈ (mergeLoop cfg missing args ofv ok st).1,
      kv ∈ ofv ∨ (kv.1 ∈ resolvedKeys cfg args ∧ getValue st kv.1 = some kv.2)) ∧
    (∀ n, n ∉ keysOf (mergeLoop cfg missing args ofv ok st).1 →
      getValue (mergeLoop cfg missing args ofv ok st).2.2 n = getValue st n) ∧
    (∀ n, n ∈ keysOf ofv →
      getValue (mergeLoop cfg missing args ofv ok st).2.2 n = getValue st n) := by
  intro args
  induction args with
  | nil =>
    intro ofv ok st _ _ _
    exact ⟨fun k hk => hk, fun kv hkv => Or.inl hkv, fun n _ => rfl, fun n _ => rfl⟩
  | cons arg rest ih =>
    intro ofv ok st hnd hdis hvals
    cases hres : resolveFlag cfg arg.Key with
    | none =>
      rw [resolvedKeys_cons_none cfg arg rest hres] at hnd hdis hvals ⊢
      simp only [mergeLoop, hres]
      exact ih ofv _ st hnd hdis hvals
    | some pr =>
      obtain ⟨key, d⟩ := pr
      rw [resolvedKeys_cons_some cfg arg rest key d hres] at hnd hdis hvals ⊢
      rw [List.nodup_cons] at hnd
      have hkeyofv : key ∉ keysOf ofv := hdis key (List.mem_cons_self _ _)
      have hdis2 : ∀ k ∈ resolvedKeys cfg rest, k ∉ keysOf ofv :=
        fun k hk => hdis k (List.mem_cons_of_mem _ hk)
      have hvals2 : ∀ k ∈ resolvedKeys cfg rest, ∃ v, getValue st k = some v :=
        fun k hk => hvals k (List.mem_cons_of_mem _ hk)
      obtain ⟨v0, hv0⟩ := hvals key (List.mem_cons_self _ _)
      simp only [mergeLoop, hres]
      by_cases hkey : key ∈ missing
      · rw [if_pos hkey]
        by_cases heq : (getValue st key).getD [] = arg.Value
        · rw [if_pos heq]
          obtain ⟨h0, h1, h2, h3⟩ := ih ofv ok st hnd.2 hdis2 hvals2
          refine ⟨h0, ?_, h2, h3⟩
          intro kv hkv
          rcases h1 kv hkv with h | h
          · exact Or.inl h
          · exact Or.inr ⟨List.mem_cons_of_mem _ h.1, h.2⟩
        · rw [if_neg heq]
          cases hsv : d.setVal arg.Value with
          | none =>
            obtain ⟨h0, h1, h2, h3⟩ := ih ofv false st hnd.2 hdis2 hvals2
            refine ⟨h0, ?_, h2, h3⟩
            intro kv hkv
            rcases h1 kv hkv with h | h
            · exact Or.inl h
            · exact Or.inr ⟨List.mem_cons_of_mem _ h.1, h.2⟩
          | some newV =>
            dsimp only
            have hvals2' : ∀ k ∈ resolvedKeys cfg rest,
                ∃ v, getValue (setValueRaw st key newV) k = some v := by
              intro k hk
              obtain ⟨v, hv⟩ := hvals2 k hk
              refine ⟨v, ?_⟩
              rw [getValue_setValueRaw_ne st key newV k
                (fun hkk => hnd.1 (hkk ▸ hk)), hv]
            by_cases hnv : (getValue st key).getD [] ≠ newV
            · rw [if_pos hnv]
              have hdis2' : ∀ k ∈ resolvedKeys cfg rest,
                  k ∉ keysOf (assocSet key ((getValue st key).getD []) ofv) := by
                intro k hk hmem
                rcases (mem_keysOf_assocSet key _ k ofv).1 hmem with h | h
                · exact hdis2 k hk h
                · exact hnd.1 (h ▸ hk)
              obtain ⟨h0, h1, h2, h3⟩ :=
                ih (assocSet key ((getValue st key).getD []) ofv) ok
                  (setValueRaw st key newV) hnd.2 hdis2' hvals2'
              have hkeymem : key ∈ keysOf (mergeLoop cfg missing rest
                  (assocSet key ((getValue st key).getD []) ofv) ok
                  (setValueRaw st key newV)).1 :=
                h0 key ((mem_keysOf_assocSet key _ key ofv).2 (Or.inr rfl))
              refine ⟨?_, ?_, ?_, ?_⟩
              · intro k hk
                exact h0 k ((mem_keysOf_assocSet key _ k ofv).2 (Or.inl hk))
              · intro kv hkv
                rcases h1 kv hkv with h | h
                · rcases mem_assocSet key _ ofv kv h with h4 | h4
                  · exact Or.inl h4
                  · subst h4
                    refine Or.inr ⟨List.mem_cons_self _ _, ?_⟩
                    simp only [hv0, Option.getD_some]
                · refine Or.inr ⟨List.mem_cons_of_mem _ h.1, ?_⟩
                  rw [← h.2, getValue_setValueRaw_ne st key newV kv.1
                    (fun hkk => hnd.1 (hkk ▸ h.1))]
              · intro n hn
                have hnkey : n ≠ key := fun hh => hn (hh ▸ hkeymem)
                rw [h2 n hn, getValue_setValueRaw_ne st key newV n hnkey]
              · intro n hn
                have hnkey : n ≠ key := fun hh => hkeyofv (hh ▸ hn)
                rw [h3 n ((mem_keysOf_assocSet key _ n ofv).2 (Or.inl hn)),
                  getValue_setValueRaw_ne st key newV n hnkey]
            · rw [if_neg hnv]
              push_neg at hnv
              have hid : ∀ n, getValue (setValueRaw st key newV) n = getValue st n := by
                intro n
                apply getValue_setValueRaw_id
                rw [hv0]
                rw [hv0] at hnv
                simp only [Option.getD_some] at hnv
                rw [hnv]
              obtain ⟨h0, h1, h2, h3⟩ := ih ofv ok (setValueRaw st key newV) hnd.2 hdis2
                (fun k hk => by rw [hid]; exact hvals2 k hk)
              refine ⟨h0, ?_, ?_, ?_⟩
              · intro kv hkv
                rcases h1 kv hkv with h | h
                · exact Or.inl h
                · exact Or.inr ⟨List.mem_cons_of_mem _ h.1, by rw [← h.2, hid]⟩
              · intro n hn
                rw [h2 n hn, hid]
              · intro n hn
                rw [h3 n hn, hid]
      · rw [if_neg hkey]
        obtain ⟨h0, h1, h2, h3⟩ := ih ofv ok st hnd.2 hdis2 hvals2
        refine ⟨h0, ?_, h2, h3⟩
        intro kv hkv
        rcases h1 kv hkv with h | h
        · exact Or.inl h
        · exact Or.inr ⟨List.mem_cons_of_mem _ h.1, h.2⟩

theorem mergePass_loop_failed (cfg : MergeCfg) (args : List flagArg) (st : RegState)
    (hfail : (mergePass cfg args st).2.1 = false) :
    (mergeLoop cfg (getMissingFlags cfg.defs st) args [] true st).2.1 = false := by
  cases hM : (mergeLoop cfg (getMissingFlags cfg.defs st) args [] true st).2.1 with
  | false => rfl
  | true =>
    exfalso
    simp only [mergePass] at hfail
    rw [hM] at hfail
    simp at hfail

theorem mergePass_failed_eq_rollback (cfg : MergeCfg) (args : List flagArg) (st : RegState)
    (hfail : (mergePass cfg args st).2.1 = false) :
    (mergePass cfg args st).2.2 =
      rollback cfg.defs (mergeLoop cfg (getMissingFlags cfg.defs st) args [] true st).1
        (mergeLoop cfg (getMissingFlags cfg.defs st) args [] true st).2.2 := by
  have hM := mergePass_loop_failed cfg args st hfail
  simp only [mergePass]
  rw [hM]
  simp

theorem regWF_values (cfg : MergeCfg) (args : List flagArg) (st : RegState)
    (hwf : RegWF cfg.defs st) :
    ∀ k ∈ resolvedKeys cfg args, ∃ v, getValue st k = some v := by
  intro k hk
  obtain ⟨d, hd⟩ := mem_resolvedKeys_lookup cfg args k hk
  obtain ⟨v, hv, _⟩ := hwf k d hd
  exact ⟨v, hv⟩

theorem mergePass_failed_restores (cfg : MergeCfg) (args : List flagArg) (st : RegState)
    (hnd : (resolvedKeys cfg args).Nodup) (hwf : RegWF cfg.defs st)
    (hfail : (mergePass cfg args st).2.1 = false) :
    ∀ n, getValue (mergePass cfg args st).2.2 n = getValue st n := by
  intro n
  obtain ⟨h0, h1, h2, h3⟩ := mergeLoop_once cfg (getMissingFlags cfg.defs st) args [] true st
    hnd (by simp [keysOf]) (regWF_values cfg args st hwf)
  obtain ⟨_, _, _, hnd4⟩ := mergeLoop_spec cfg (getMissingFlags cfg.defs st) args [] true st
  have hndk := hnd4 (by simp [keysOf])
  have hcanon : ∀ kv ∈ (mergeLoop cfg (getMissingFlags cfg.defs st) args [] true st).1,
      CanonEntry cfg.defs kv := by
    intro kv hkv
    rcases h1 kv hkv with h | h
    · simp at h
    · obtain ⟨d, hd⟩ := mem_resolvedKeys_lookup cfg args kv.1 h.1
      obtain ⟨v, hv, hcv⟩ := hwf kv.1 d hd
      have hveq : v = kv.2 := by
        rw [hv] at h
        exact Option.some.inj h.2
      exact ⟨d, hd, hveq ▸ hcv⟩
  rw [mergePass_failed_eq_rollback cfg args st hfail]
  by_cases hmem : n ∈ keysOf (mergeLoop cfg (getMissingFlags cfg.defs st) args [] true st).1
  · obtain ⟨kv, hkv, hkvn⟩ := List.mem_map.1 hmem
    subst hkvn
    have hres := rollback_restores cfg.defs _
      (mergeLoop cfg (getMissingFlags cfg.defs st) args [] true st).2.2 hndk hcanon kv hkv
    rcases h1 kv hkv with h | h
    · simp at h
    · rw [hres.1, h.2]
  · rw [rollback_getValue_off cfg.defs _ _ n hmem, h2 n hmem]

theorem mergePass_failed_marks_actual (cfg : MergeCfg) (args : List flagArg) (st : RegState)
    (k : Str) (hsc : SelfCanon cfg.defs) (hwf : RegWF cfg.defs st)
    (hfail : (mergePass cfg args st).2.1 = false)
    (htouch : k ∈ mergeTouched cfg args st) :
    k ∈ (mergePass cfg args st).2.2.actual ∧
      k ∉ getMissingFlags cfg.defs (mergePass cfg args st).2.2 ∧
      ∀ passes, getValue (runMergePasses cfg passes (mergePass cfg args st).2.2) k =
        getValue (mergePass cfg args st).2.2 k := by
  obtain ⟨_, hcanon⟩ := mergeLoop_canon cfg (getMissingFlags cfg.defs st) hsc args [] true st
    hwf (by simp)
  obtain ⟨_, _, _, hnd4⟩ := mergeLoop_spec cfg (getMissingFlags cfg.defs st) args [] true st
  have hndk := hnd4 (by simp [keysOf])
  rw [mergeTouched] at htouch
  obtain ⟨kv, hkv, hkvn⟩ := List.mem_map.1 htouch
  subst hkvn
  have hres := rollback_restores cfg.defs _
    (mergeLoop cfg (getMissingFlags cfg.defs st) args [] true st).2.2 hndk hcanon kv hkv
  have hmem : kv.1 ∈ (mergePass cfg args st).2.2.actual := by
    rw [mergePass_failed_eq_rollback cfg args st hfail]
    exact hres.2
  refine ⟨hmem, getMissingFlags_not_mem cfg.defs _ kv.1 hmem, ?_⟩
  intro passes
  exact (runMergePasses_preserves cfg passes _ kv.1 hmem).1

/-- C1: for every flag explicitly set on the command line (a member of the
registry's explicitly-set set before the first pass), no merge pass — the
initial Parse pass or any sequence of subsequent reload passes, whatever
directives any config source or import produced — ever changes that flag's
value, and the flag stays classified as explicitly set. -/
theorem cmdline_flag_never_overridden (cfg : MergeCfg) (passes : List (List flagArg))
    (st : RegState) (n : Str) (h : n ∈ st.actual) :
    getValue (runMergePasses cfg passes st) n = getValue st n ∧
      n ∈ (runMergePasses cfg passes st).actual :=
  runMergePasses_preserves cfg passes st n h

/-- C1 witness: a command-line-set addr keeps its value cli across a reload
pass whose config directive tries to override it. -/
theorem cmdline_flag_never_overridden_w :
    ("addr".toList ∈ stW1.actual) ∧
      getValue (runMergePasses cfgW1 passW1 stW1) "addr".toList =
        getValue stW1 "addr".toList :=
  ⟨by decide, (cmdline_flag_never_overridden cfgW1 passW1 stW1 "addr".toList (by decide)).1⟩

/-- C2 counterexample: a failing pass that changed x twice (a to b, then b to
c) before the failing directive rolls x back only to b, not to its pre-pass
value a — the pass does not have zero net effect on every touched flag. -/
theorem mergePass_rollback_not_pristine :
    (mergePass cfgC2 argsC2 stC2).2.1 = false ∧
      "x".toList ∈ mergeTouched cfgC2 argsC2 stC2 ∧
      getValue stC2 "x".toList = some "a".toList ∧
      getValue (mergePass cfgC2 argsC2 stC2).2.2 "x".toList = some "b".toList := by
  decide

/-- C2 amended: when a merge pass fails, every touched flag is restored to
the value recorded for it in the rollback map — the value it held just
before its most recent change in the pass.  Provided no two directives of
the pass resolve to the same flag (and the registry re-accepts its own
stored values), this is the pre-pass value, and the failing pass has zero
net effect on every flag's value. -/
theorem mergePass_failed_zero_net_effect (cfg : MergeCfg) (args : List flagArg)
    (st : RegState) (hnd : (resolvedKeys cfg args).Nodup) (hwf : RegWF cfg.defs st)
    (hfail : (mergePass cfg args st).2.1 = false) (n : Str) :
    getValue (mergePass cfg args st).2.2 n = getValue st n :=
  mergePass_failed_restores cfg args st hnd hwf hfail n

theorem regWF_XY : RegWF cfgXY.defs stXY := by
  intro k d hk
  simp only [cfgXY, xFD, yFD, lookupFlag] at hk
  by_cases h1 : ("x".toList : Str) = k
  · rw [if_pos h1] at hk
    cases hk
    subst h1
    exact ⟨"a".toList, by decide, by decide⟩
  · rw [if_neg h1] at hk
    by_cases h2 : ("y".toList : Str) = k
    · rw [if_pos h2] at hk
      cases hk
      subst h2
      exact ⟨"0".toList, by decide, by decide⟩
    · rw [if_neg h2] at hk
      exact absurd hk (by simp)

theorem selfCanon_XY : SelfCanon cfgXY.defs := by
  intro d hd v w hvw
  simp only [cfgXY] at hd
  rcases List.mem_cons.1 hd with h | h
  · subst h
    simp only [xFD, idSet] at hvw
    cases hvw
    simp [xFD, idSet]
  · rcases List.mem_cons.1 h with h | h
    · subst h
      simp only [yFD, shortSet] at hvw ⊢
      by_cases hl : v.length ≤ 1
      · rw [if_pos hl] at hvw
        cases hvw
        rw [if_pos hl]
      · rw [if_neg hl] at hvw
        exact absurd hvw (by simp)
    · simp at h

/-- C2 amended witness: a pass with one valid directive (x = b) followed by a
directive the registry rejects (y = zzz) fails and leaves x at its
pre-pass value. -/
theorem mergePass_failed_zero_net_effect_w :
    getValue (mergePass cfgXY argsXY stXY).2.2 "x".toList =
      getValue stXY "x".toList :=
  mergePass_failed_zero_net_effect cfgXY argsXY stXY (by decide) regWF_XY
    (by decide) "x".toList

/-- C10: the rollback of a failed pass restores flags through the registry's
top-level set-by-name operation, which marks them explicitly set: every
flag rolled back by a failed pass is in the explicitly-set set afterwards,
is therefore not in any later pass's missing-flags set, and no sequence of
later passes ever changes its value again. -/
theorem rolledback_flag_sticks (cfg : MergeCfg) (args : List flagArg) (st : RegState)
    (k : Str) (hsc : SelfCanon cfg.defs) (hwf : RegWF cfg.defs st)
    (hfail : (mergePass cfg args st).2.1 = false)
    (htouch : k ∈ mergeTouched cfg args st) :
    k ∈ (mergePass cfg args st).2.2.actual ∧
      k ∉ getMissingFlags cfg.defs (mergePass cfg args st).2.2 ∧
      ∀ passes, getValue (runMergePasses cfg passes (mergePass cfg args st).2.2) k =
        getValue (mergePass cfg args st).2.2 k :=
  mergePass_failed_marks_actual cfg args st k hsc hwf hfail htouch

/-- C10 witness: after the failing x = b, y = zzz pass, the rolled-back flag
x is classified as explicitly set even though it never was on the command
line. -/
theorem rolledback_flag_sticks_w :
    "x".toList ∈ (mergePass cfgXY argsXY stXY).2.2.actual :=
  (rolledback_flag_sticks cfgXY argsXY stXY "x".toList selfCanon_XY regWF_XY
    (by decide) (by decide)).1

theorem updateConfig_generation_le (cfg : MergeCfg) (src : Src) (s : IniState) :
    s.generation ≤ (updateConfig cfg src s).generation := by
  rw [updateConfig]
  by_cases hc : (parseConfigFlagsSrc cfg src s.reg).2.1 ∧
      ((parseConfigFlagsSrc cfg src s.reg).1.getD []).length > 0
  · rw [if_pos hc]
    exact Nat.le_succ _
  · rw [if_neg hc]

/-- C3: the Generation counter is incremented exactly once by a completed
Parse call; a reload increments it exactly once when its pass succeeded
with a non-empty old-values map, and leaves it unchanged when the pass
failed or changed nothing; and Generation is non-decreasing across any
sequence of reloads. -/
theorem generation_monotone_exact (cfg : MergeCfg) (s : IniState) :
    (∀ src df s2, Parse cfg src df s = ParseOutcome.completed s2 →
      s2.generation = s.generation + 1) ∧
    (∀ src, ((parseConfigFlagsSrc cfg src s.reg).2.1 = true ∧
        ((parseConfigFlagsSrc cfg src s.reg).1.getD []).length > 0 →
        (updateConfig cfg src s).generation = s.generation + 1) ∧
      (¬((parseConfigFlagsSrc cfg src s.reg).2.1 = true ∧
        ((parseConfigFlagsSrc cfg src s.reg).1.getD []).length > 0) →
        (updateConfig cfg src s).generation = s.generation)) ∧
    (∀ srcs, s.generation ≤ (runReloads cfg srcs s).generation) := by
  refine ⟨?_, ?_, ?_⟩
  · intro src df s2 h
    by_cases hp : s.parsed
    · rw [Parse, if_pos hp] at h
      exact absurd h (by simp)
    · rw [Parse, if_neg hp] at h
      dsimp only at h
      cases hok : (parseConfigFlagsSrc cfg src s.reg).2.1 with
      | false => rw [hok] at h; simp at h
      | true =>
        rw [hok] at h
        simp only [Bool.true_eq_false, if_false] at h
        cases df with
        | true => simp at h
        | false =>
          simp only [if_neg (by simp : ¬(false = true))] at h
          cases h
          rfl
  · intro src
    constructor
    · intro hc
      rw [updateConfig, if_pos ⟨hc.1, hc.2⟩]
    · intro hc
      rw [updateConfig, if_neg hc]
  · intro srcs
    induction srcs generalizing s with
    | nil => exact Nat.le_refl _
    | cons src rest ih =>
      rw [runReloads, List.foldl_cons]
      calc s.generation ≤ (updateConfig cfg src s).generation :=
            updateConfig_generation_le cfg src s
        _ ≤ _ := by
            have := ih (updateConfig cfg src s)
            rw [runReloads] at this
            exact this

/-- C3 witness: a Parse over an empty config path completes and takes
Generation from 0 to 1. -/
theorem generation_monotone_exact_w :
    (Parse cfgW1 Src.noPath false ⟨stW1, 0, false⟩ =
      ParseOutcome.completed ⟨stW1, 1, true⟩) ∧
      (⟨stW1, 1, true⟩ : IniState).generation = 0 + 1 :=
  ⟨by decide,
    (generation_monotone_exact cfgW1 ⟨stW1, 0, false⟩).1 Src.noPath false
      ⟨stW1, 1, true⟩ (by decide)⟩

/-- C4: the source m{,}=line1, m{,}=line2, m{|}=line3, m{}=line4 parses to
the single directive m = line1,line2|line3line4: each subsequent occurrence
of the base name appends its delimiter and value, and the pending
accumulation is flushed at end of source; in the second scenario a
different base name and a bare key each flush the pending accumulation
first. -/
theorem multiline_join_scenarios :
    getArgsFromConfig env4 1 [] "/cfg".toList =
      PRes.ok [⟨"m".toList, "line1,line2|line3line4".toList, "/cfg".toList, 1, []⟩] ∧
    getArgsFromConfig env4b 1 [] "/cfg".toList =
      PRes.ok [⟨"m".toList, "a".toList, "/cfg".toList, 1, []⟩,
        ⟨"n".toList, "b".toList, "/cfg".toList, 2, []⟩,
        ⟨"x".toList, "c".toList, "/cfg".toList, 3, []⟩] := by
  constructor
  · decide
  · decide

/-- C5 counterexample: a line using the semicolon comment marker before the
word import is treated as an ordinary comment — parsing /semi yields no
directives at all, although the imported base file holds two directives
that the claim says would be spliced in. -/
theorem semicolon_import_not_spliced :
    getArgsFromConfig env5 2 [] "/semi".toList = PRes.ok [] ∧
      getArgsFromConfig env5 2 [] "/base".toList =
        PRes.ok [⟨"flag1".toList, "value1".toList, "/base".toList, 1, []⟩,
          ⟨"flag2".toList, "value2".toList, "/base".toList, 2, []⟩] := by
  constructor
  · decide
  · decide

theorem mergeLoop_append (cfg : MergeCfg) (missing : List Str) :
    ∀ (l1 l2 : List flagArg) (ofv : List (Str × Str)) (ok : Bool) (st : RegState),
    mergeLoop cfg missing (l1 ++ l2) ofv ok st =
      mergeLoop cfg missing l2 (mergeLoop cfg missing l1 ofv ok st).1
        (mergeLoop cfg missing l1 ofv ok st).2.1
        (mergeLoop cfg missing l1 ofv ok st).2.2 := by
  intro l1
  induction l1 with
  | nil => intro l2 ofv ok st; rfl
  | cons a rest ih =>
    intro l2 ofv ok st
    rw [List.cons_append]
    cases hres : resolveFlag cfg a.Key with
    | none =>
      simp only [mergeLoop, hres]
      exact ih l2 _ _ st
    | some pr =>
      obtain ⟨key, d⟩ := pr
      simp only [mergeLoop, hres]
      by_cases hkey : key ∈ missing
      · simp only [if_pos hkey]
        by_cases heq : (getValue st key).getD [] = a.Value
        · simp only [if_pos heq]
          exact ih l2 ofv ok st
        · simp only [if_neg heq]
          cases hsv : d.setVal a.Value with
          | none => exact ih l2 ofv false st
          | some newV =>
            dsimp only
            by_cases hnv : (getValue st key).getD [] ≠ newV
            · simp only [if_pos hnv]
              exact ih l2 _ ok _
            · simp only [if_neg hnv]
              exact ih l2 ofv ok _
      · simp only [if_neg hkey]
        exact ih l2 ofv ok st

theorem mergeLoop_value_isSome (cfg : MergeCfg) (missing : List Str) :
    ∀ (args : List flagArg) (ofv : List (Str × Str)) (ok : Bool) (st : RegState)
      (n : Str), (∃ w, getValue st n = some w) →
    ∃ w, getValue (mergeLoop cfg missing args ofv ok st).2.2 n = some w := by
  intro args
  induction args with
  | nil => intro ofv ok st n h; exact h
  | cons a rest ih =>
    intro ofv ok st n h
    cases hres : resolveFlag cfg a.Key with
    | none =>
      simp only [mergeLoop, hres]
      exact ih ofv _ st n h
    | some pr =>
      obtain ⟨key, d⟩ := pr
      simp only [mergeLoop, hres]
      by_cases hkey : key ∈ missing
      · rw [if_pos hkey]
        by_cases heq : (getValue st key).getD [] = a.Value
        · rw [if_pos heq]
          exact ih ofv ok st n h
        · rw [if_neg heq]
          cases hsv : d.setVal a.Value with
          | none => exact ih ofv false st n h
          | some newV =>
            dsimp only
            have hpres : ∃ w, getValue (setValueRaw st key newV) n = some w := by
              by_cases hn : n = key
              · subst hn
                exact ⟨newV, getValue_setValueRaw_self st n newV⟩
              · obtain ⟨w, hw⟩ := h
                exact ⟨w, by rw [getValue_setValueRaw_ne st key newV n hn, hw]⟩
            by_cases hnv : (getValue st key).getD [] ≠ newV
            · rw [if_pos hnv]
              exact ih _ ok _ n hpres
            · rw [if_neg hnv]
              exact ih ofv ok _ n hpres
      · rw [if_neg hkey]
        exact ih ofv ok st n h

theorem checkImportRecursion_of_mem :
    ∀ (stack : List Str) (p : Str), p ∈ stack → checkImportRecursion stack p = false := by
  intro stack
  induction stack with
  | nil => intro p h; simp at h
  | cons q t ih =>
    intro p h
    rw [checkImportRecursion]
    by_cases hq : q = p
    · rw [if_pos hq]
    · rw [if_neg hq]
      rcases List.mem_cons.1 h with h1 | h1
      · exact absurd h1.symm hq
      · exact ih p h1

/-- C7: an import whose resolved identifier is already on the import stack
fails the whole parse with no partial directive list; concretely, /a
importing /b importing /a fails, and the full parseConfigFlags pipeline
over that source reports failure with the flag registry unchanged. -/
theorem cyclic_import_fails (env : ParseEnv) (fuel : Nat) (stack : List Str) (p : Str)
    (h : p ∈ stack) :
    getArgsFromConfig env fuel stack p = PRes.fail ∧
      getArgsFromConfig env7 5 [] "/a".toList = PRes.fail ∧
      ∀ (cfg : MergeCfg) (st : RegState),
        parseConfigFlagsFS cfg env7 5 "/a".toList st = PRes.ok (none, false, st) := by
  refine ⟨?_, by decide, ?_⟩
  · rw [getArgsFromConfig, checkImportRecursion_of_mem stack p h]
    simp
  · intro cfg st
    have hfa : getArgsFromConfig env7 5 [] "/a".toList = PRes.fail := by decide
    rw [parseConfigFlagsFS, if_neg (by decide : ¬("/a".toList : Str) = []), hfa]

/-- C7 witness: the cycle check fires when the current path is already on
the stack. -/
theorem cyclic_import_fails_w :
    getArgsFromConfig env7 1 ["/a".toList] "/a".toList = PRes.fail :=
  (cyclic_import_fails env7 1 ["/a".toList] "/a".toList (by decide)).1

/-- C9: plaintext http is rejected with a non-nil error whenever the
allow-unsecure toggle is unset, whatever the fetch would return; with the
toggle set, and always over https, the fetch proceeds and a 200 response
yields the stream; but a response with a non-success status makes
openConfigFile return a nil stream together with a nil error (the source
returns the err variable, which is nil at that point), not the fetch
failure the claim requires. -/
theorem openConfigFile_nil_error_on_bad_status :
    (∀ (g : Str → Option (Nat × Str)) (o : Str → Option Str),
      openConfigFile g o false "http://x".toList = (none, true)) ∧
    openConfigFile getOK noOpen true "http://x".toList = (some "body".toList, false) ∧
    openConfigFile getOK noOpen false "https://x".toList = (some "body".toList, false) ∧
    openConfigFile get500 noOpen false "https://x".toList = (none, false) := by
  refine ⟨fun g o => ?_, by decide, by decide, by decide⟩
  rfl

theorem trimLeft_cons_not_space (c : Char) (t : Str) (h : isSpaceGo c = false) :
    trimLeft (c :: t) = c :: t := by
  simp [trimLeft, List.dropWhile_cons, h]

theorem head_not_space_of_trimLeft (s : Str) (h : trimLeft s = s) :
    ∀ c t, s = c :: t → isSpaceGo c = false := by
  intro c t hs
  subst hs
  rw [trimLeft, List.dropWhile_eq_self_iff] at h
  have := h (by simp)
  simpa using this

theorem trimLeft_append_of (a b : Str) (ha : trimLeft a = a) (hne : a ≠ []) :
    trimLeft (a ++ b) = a ++ b := by
  cases a with
  | nil => exact absurd rfl hne
  | cons c t =>
    have hc := head_not_space_of_trimLeft (c :: t) ha c t rfl
    simp [trimLeft, List.dropWhile_cons, hc]

theorem trimRight_append (a b : Str) :
    trimRight (a ++ b) = if trimRight b = [] then trimRight a else a ++ trimRight b := by
  simp only [trimRight, List.reverse_append, List.dropWhile_append]
  by_cases hb : (List.dropWhile isSpaceGo b.reverse).isEmpty
  · rw [if_pos hb, if_pos]
    rw [List.isEmpty_iff] at hb
    rw [hb]
    rfl
  · rw [if_neg hb, if_neg]
    · rw [List.reverse_append, List.reverse_reverse]
    · intro hc
      apply hb
      rw [List.isEmpty_iff]
      exact List.reverse_eq_nil_iff.1 hc

theorem trimRight_idem (s : Str) : trimRight (trimRight s) = trimRight s :=
  List.rdropWhile_idempotent isSpaceGo s

theorem trimRight_hash_tail (E : Str) :
    trimRight ("  # ".toList ++ E) = "  #".toList ++ trimRight (' ' :: E) := by
  have h1 : ("  # ".toList : Str) ++ E = "  #".toList ++ (' ' :: E) := rfl
  rw [h1, trimRight_append]
  by_cases hE : trimRight (' ' :: E) = []
  · rw [if_pos hE, hE]
    decide
  · rw [if_neg hE]

theorem trimRight_fixed_append_hash (W : Str) (hW : trimRight W = W) :
    trimRight ("  #".toList ++ W) = "  #".toList ++ W := by
  rw [trimRight_append]
  by_cases h : trimRight W = []
  · rw [if_pos h]
    rw [hW] at h
    rw [h]
    decide
  · rw [if_neg h, hW]

theorem trimSpace_dump_shape (n Q E : Str) (hn1 : n ≠ []) (hn2 : trimLeft n = n) :
    trimSpace (n ++ " = ".toList ++ Q ++ "  # ".toList ++ E) =
      n ++ " = ".toList ++ Q ++ "  #".toList ++ trimRight (' ' :: E) := by
  have hL : n ++ " = ".toList ++ Q ++ "  # ".toList ++ E
      = n ++ (" = ".toList ++ Q ++ ("  # ".toList ++ E)) := by
    simp [List.append_assoc]
  rw [trimSpace, hL, trimLeft_append_of n _ hn2 hn1]
  have hR : n ++ (" = ".toList ++ Q ++ ("  # ".toList ++ E))
      = (n ++ " = ".toList ++ Q) ++ ("  # ".toList ++ E) := by
    simp [List.append_assoc]
  rw [hR, trimRight_append, trimRight_hash_tail]
  rw [if_neg (by simp)]
  simp [List.append_assoc]

theorem trimSpace_name_space (n : Str) (hn1 : n ≠ []) (hn2 : trimLeft n = n)
    (hn3 : trimRight n = n) : trimSpace (n ++ [' ']) = n := by
  rw [trimSpace, trimLeft_append_of n [' '] hn2 hn1, trimRight_append]
  rw [if_pos (by decide)]
  exact hn3

theorem splitEq_append (c : Char) (a b : Str) (h : c ∉ a) :
    splitEq c (a ++ c :: b) = some (a, b) := by
  induction a with
  | nil => simp [splitEq]
  | cons d t ih =>
    simp only [List.mem_cons] at h
    push_neg at h
    simp only [List.cons_append, splitEq, if_neg (Ne.symm h.1), List.append_eq]
    rw [ih h.2]
    rfl

theorem strHasPre_cons_false (a : Char) (p : Str) (d : Char) (s : Str) (h : a ≠ d) :
    strHasPre (a :: p) (d :: s) = false := by
  simp [strHasPre, h]

theorem containsC_iff (c : Char) : ∀ s : Str, containsC c s = true ↔ c ∈ s := by
  intro s
  induction s with
  | nil => simp [containsC]
  | cons d t ih =>
    simp only [containsC, Bool.or_eq_true, decide_eq_true_eq, ih, List.mem_cons]
    exact ⟨fun h => h.elim (fun h1 => Or.inl h1.symm) Or.inr,
      fun h => h.elim (fun h1 => Or.inl h1.symm) Or.inr⟩

theorem lastIndexC_of_not_mem (c : Char) : ∀ s : Str, c ∉ s → lastIndexC c s = none := by
  intro s
  induction s with
  | nil => intro _; rfl
  | cons d t ih =>
    intro h
    simp only [List.mem_cons] at h
    push_neg at h
    rw [lastIndexC, ih h.2, if_neg (Ne.symm h.1)]

theorem lastIndexC_append_right_none (c : Char) (a b : Str) (h : c ∉ b) :
    lastIndexC c (a ++ b) = lastIndexC c a := by
  induction a with
  | nil => simpa using lastIndexC_of_not_mem c b h
  | cons d t ih =>
    simp only [List.cons_append, lastIndexC, List.append_eq, ih]

theorem lastIndexC_append_last (c : Char) : ∀ a : Str, lastIndexC c (a ++ [c]) = some a.length := by
  intro a
  induction a with
  | nil => simp [lastIndexC]
  | cons d t ih =>
    simp only [List.cons_append, lastIndexC, List.append_eq, ih, List.length_cons]

theorem takeUntilC_append_not_mem (c : Char) (a b : Str) (h : c ∉ a) :
    takeUntilC c (a ++ b) = a ++ takeUntilC c b := by
  induction a with
  | nil => rfl
  | cons d t ih =>
    simp only [List.mem_cons] at h
    push_neg at h
    simp only [List.cons_append, takeUntilC, if_neg (Ne.symm h.1), List.append_eq]
    rw [ih h.2]

theorem takeUntilC_not_mem (c : Char) (a : Str) (h : c ∉ a) : takeUntilC c a = a := by
  have := takeUntilC_append_not_mem c a [] h
  simpa [takeUntilC] using this

theorem replaceAllF_ge (pat rep : Str) :
    ∀ (f : Nat) (s : Str), s.length ≤ f → replaceAllF pat rep f s = replaceAll pat rep s := by
  intro f
  induction f using Nat.strong_induction_on with
  | _ f ih =>
    intro s hs
    match f, s with
    | 0, [] => rfl
    | fv + 1, [] => rfl
    | 0, d :: t => exact absurd hs (by simp)
    | fv + 1, d :: t =>
      simp only [List.length_cons] at hs
      have hR : replaceAll pat rep (d :: t) =
          if pat ≠ [] ∧ strHasPre pat (d :: t) then
            rep ++ replaceAllF pat rep t.length (t.drop (pat.length - 1))
          else d :: replaceAllF pat rep t.length t := by
        rw [replaceAll]
        simp only [List.length_cons, replaceAllF]
      rw [hR]
      simp only [replaceAllF]
      by_cases hc : pat ≠ [] ∧ strHasPre pat (d :: t)
      · rw [if_pos hc, if_pos hc]
        have hlen : (t.drop (pat.length - 1)).length ≤ t.length := by
          simp [List.length_drop]
        congr 1
        rw [ih fv (by omega) _ (by omega),
          ih t.length (by omega) _ (by omega)]
      · rw [if_neg hc, if_neg hc]
        congr 1
        rw [ih fv (by omega) t (by omega), ih t.length (by omega) t (by omega)]

theorem replaceAll1_cons (a : Char) (rep : Str) (c : Char) (t : Str) :
    replaceAll [a] rep (c :: t) =
      if c = a then rep ++ replaceAll [a] rep t else c :: replaceAll [a] rep t := by
  rw [replaceAll]
  simp only [List.length_cons, replaceAllF]
  by_cases h : c = a
  · subst h
    rw [if_pos ⟨by simp, by simp [strHasPre]⟩, if_pos rfl]
    rfl
  · have hpre := strHasPre_cons_false a [] c t (Ne.symm h)
    rw [if_neg (by rintro ⟨_, hp⟩; rw [hpre] at hp; exact Bool.false_ne_true hp),
      if_neg h]
    rfl

theorem replaceAll2_cons_ne_first (a b : Char) (rep : Str) (c : Char) (s : Str) (h : c ≠ a) :
    replaceAll [a, b] rep (c :: s) = c :: replaceAll [a, b] rep s := by
  rw [replaceAll]
  simp only [List.length_cons, replaceAllF]
  rw [if_neg]
  · rfl
  · rintro ⟨_, hp⟩
    rw [strHasPre_cons_false a [b] c s (Ne.symm h)] at hp
    exact Bool.false_ne_true hp

theorem replaceAll2_cons_match (a b : Char) (rep : Str) (t : Str) :
    replaceAll [a, b] rep (a :: b :: t) = rep ++ replaceAll [a, b] rep t := by
  rw [replaceAll]
  simp only [List.length_cons, replaceAllF]
  rw [if_pos ⟨by simp, by simp [strHasPre]⟩]
  congr 1
  have harg : List.drop (([a, b] : Str).length - 1) (b :: t) = t := by simp
  rw [show (([] : Str).length + 1 + 1 - 1) = (([a, b] : Str).length - 1) from rfl, harg]
  exact replaceAllF_ge [a, b] rep (t.length + 1) t (by omega)

theorem replaceAll2_second_ne (a b : Char) (rep : Str) (c : Char) (t : Str) (h : c ≠ b) :
    replaceAll [a, b] rep (a :: c :: t) = a :: replaceAll [a, b] rep (c :: t) := by
  rw [replaceAll]
  simp only [List.length_cons, replaceAllF]
  rw [if_neg (by rintro ⟨_, hp⟩; simp [strHasPre, Ne.symm h] at hp)]
  rfl

theorem replaceAll2_single (a b : Char) (rep : Str) (c : Char) :
    replaceAll [a, b] rep [c] = [c] := by
  rw [replaceAll]
  simp only [List.length_cons, replaceAllF]
  rw [if_neg (by rintro ⟨_, hp⟩; simp [strHasPre] at hp)]

theorem replaceAll1_id (a : Char) (rep : Str) :
    ∀ s : Str, a ∉ s → replaceAll [a] rep s = s := by
  intro s
  induction s with
  | nil => intro _; rfl
  | cons c t ih =>
    intro h
    simp only [List.mem_cons] at h
    push_neg at h
    rw [replaceAll1_cons, if_neg (Ne.symm h.1), ih h.2]

theorem mem_replaceAll1 (a : Char) (rep : Str) :
    ∀ (s : Str) (x : Char), x ∈ replaceAll [a] rep s → x ∈ s ∨ x ∈ rep := by
  intro s
  induction s with
  | nil => intro x hx; simp [replaceAll, replaceAllF] at hx
  | cons c t ih =>
    intro x hx
    rw [replaceAll1_cons] at hx
    by_cases hc : c = a
    · rw [if_pos hc] at hx
      rcases List.mem_append.1 hx with h | h
      · exact Or.inr h
      · rcases ih x h with h1 | h1
        · exact Or.inl (List.mem_cons_of_mem _ h1)
        · exact Or.inr h1
    · rw [if_neg hc] at hx
      rcases List.mem_cons.1 hx with h | h
      · exact Or.inl (h ▸ List.mem_cons_self _ _)
      · rcases ih x h with h1 | h1
        · exact Or.inl (List.mem_cons_of_mem _ h1)
        · exact Or.inr h1

theorem not_mem_replaceAll1 (a : Char) (rep : Str) (ha : a ∉ rep) :
    ∀ s : Str, a ∉ replaceAll [a] rep s := by
  intro s
  induction s with
  | nil => simp [replaceAll, replaceAllF]
  | cons c t ih =>
    rw [replaceAll1_cons]
    by_cases hc : c = a
    · rw [if_pos hc]
      intro hx
      rcases List.mem_append.1 hx with h | h
      · exact ha h
      · exact ih h
    · rw [if_neg hc]
      intro hx
      rcases List.mem_cons.1 hx with h | h
      · exact hc h.symm
      · exact ih h

theorem not_mem_replaceAll1_of (a x : Char) (rep : Str) (hx : x ∉ rep) (s : Str)
    (hs : x ∉ s) : x ∉ replaceAll [a] rep s :=
  fun hm => (mem_replaceAll1 a rep s x hm).elim hs hx

theorem containsAnyC_iff (v chars : Str) :
    containsAnyC v chars = true ↔ ∃ x ∈ v, x ∈ chars := by
  rw [containsAnyC, List.any_eq_true]
  constructor
  · rintro ⟨x, hx, hc⟩
    exact ⟨x, hx, (containsC_iff x chars).1 hc⟩
  · rintro ⟨x, hx, hc⟩
    exact ⟨x, hx, (containsC_iff x chars).2 hc⟩

theorem unesc_esc (v : Str) (hbs : '\\' ∉ v) :
    replaceAll ['\\', '\\'] ['\\']
      (replaceAll ['\\', 'n'] ['\n']
        (replaceAll ['\\', '"'] ['"']
          (replaceAll ['"'] ['\\', '"'] (replaceAll ['\n'] ['\\', 'n'] v)))) = v := by
  induction v with
  | nil => rfl
  | cons c t ih =>
    simp only [List.mem_cons] at hbs
    push_neg at hbs
    have iht := ih hbs.2
    by_cases hnl : c = '\n'
    · subst hnl
      rw [replaceAll1_cons, if_pos rfl]
      rw [show (['\\', 'n'] ++ replaceAll ['\n'] ['\\', 'n'] t : Str)
          = '\\' :: 'n' :: replaceAll ['\n'] ['\\', 'n'] t from rfl]
      rw [replaceAll1_cons ('"') _ '\\', if_neg (by decide),
        replaceAll1_cons ('"') _ 'n', if_neg (by decide)]
      rw [replaceAll2_second_ne '\\' '"' ['"'] 'n' _ (by decide),
        replaceAll2_cons_ne_first '\\' '"' ['"'] 'n' _ (by decide)]
      rw [replaceAll2_cons_match '\\' 'n' ['\n']]
      rw [show (['\n'] ++ replaceAll ['\\', 'n'] ['\n']
          (replaceAll ['\\', '"'] ['"']
            (replaceAll ['"'] ['\\', '"'] (replaceAll ['\n'] ['\\', 'n'] t))) : Str)
          = '\n' :: replaceAll ['\\', 'n'] ['\n']
            (replaceAll ['\\', '"'] ['"']
              (replaceAll ['"'] ['\\', '"'] (replaceAll ['\n'] ['\\', 'n'] t))) from rfl]
      rw [replaceAll2_cons_ne_first '\\' '\\' ['\\'] '\n' _ (by decide)]
      rw [iht]
    · by_cases hq : c = '"'
      · subst hq
        rw [replaceAll1_cons, if_neg (by decide)]
        rw [replaceAll1_cons, if_pos rfl]
        rw [show (['\\', '"'] ++ replaceAll ['"'] ['\\', '"']
            (replaceAll ['\n'] ['\\', 'n'] t) : Str)
            = '\\' :: '"' :: replaceAll ['"'] ['\\', '"']
              (replaceAll ['\n'] ['\\', 'n'] t) from rfl]
        rw [replaceAll2_cons_match '\\' '"' ['"']]
        rw [show (['"'] ++ replaceAll ['\\', '"'] ['"']
            (replaceAll ['"'] ['\\', '"'] (replaceAll ['\n'] ['\\', 'n'] t)) : Str)
            = '"' :: replaceAll ['\\', '"'] ['"']
              (replaceAll ['"'] ['\\', '"'] (replaceAll ['\n'] ['\\', 'n'] t)) from rfl]
        rw [replaceAll2_cons_ne_first '\\' 'n' ['\n'] '"' _ (by decide)]
        rw [replaceAll2_cons_ne_first '\\' '\\' ['\\'] '"' _ (by decide)]
        rw [iht]
      · rw [replaceAll1_cons, if_neg hnl]
        rw [replaceAll1_cons, if_neg hq]
        rw [replaceAll2_cons_ne_first '\\' '"' ['"'] c _ (Ne.symm hbs.1)]
        rw [replaceAll2_cons_ne_first '\\' 'n' ['\n'] c _ (Ne.symm hbs.1)]
        rw [replaceAll2_cons_ne_first '\\' '\\' ['\\'] c _ (Ne.symm hbs.1)]
        rw [iht]

theorem escapeUsage_no_quote (u : Str) : '"' ∉ escapeUsage u := by
  unfold escapeUsage escChars
  simp only [List.foldl_cons, List.foldl_nil]
  iterate 10 refine not_mem_replaceAll1_of _ _ _ (by simp) _ ?_
  exact not_mem_replaceAll1 '"' [] (by simp) _

theorem escapeUsage_no_newline (u : Str) (hu : '\n' ∉ u) : '\n' ∉ escapeUsage u := by
  unfold escapeUsage escChars
  simp only [List.foldl_cons, List.foldl_nil]
  rw [replaceAll1_id '\n' _ u hu]
  iterate 17 refine not_mem_replaceAll1_of _ _ _ (by simp) _ ?_
  exact hu

theorem quoteValue_raw (v : Str)
    (hg : ¬containsAnyC v "\n#;".toList = true ∧ trimSpace v = v) :
    quoteValue v = v := by
  rw [quoteValue, if_pos hg]

theorem quoteValue_quoted (v : Str) (hbs : '\\' ∉ v)
    (hg : ¬(¬containsAnyC v "\n#;".toList = true ∧ trimSpace v = v)) :
    quoteValue v =
      '"' :: replaceAll ['"'] ['\\', '"'] (replaceAll ['\n'] ['\\', 'n'] v) ++ ['"'] := by
  rw [quoteValue, if_neg hg]
  rw [replaceAll1_id '\\' _ v hbs]

theorem quoteValue_no_newline (v : Str) (hbs : '\\' ∉ v) : '\n' ∉ quoteValue v := by
  by_cases hg : ¬containsAnyC v "\n#;".toList = true ∧ trimSpace v = v
  · rw [quoteValue_raw v hg]
    intro hmem
    exact hg.1 ((containsAnyC_iff v _).2 ⟨'\n', hmem, by decide⟩)
  · rw [quoteValue_quoted v hbs hg]
    intro hmem
    rcases List.mem_cons.1 hmem with h | h
    · exact absurd h.symm (by decide)
    · rcases List.mem_append.1 h with h | h
      · exact not_mem_replaceAll1_of '"' '\n' ['\\', '"'] (by decide) _
          (not_mem_replaceAll1 '\n' ['\\', 'n'] (by decide) v) h
      · simp at h

theorem splitC_ne_nil (c : Char) : ∀ s : Str, splitC c s ≠ [] := by
  intro s
  cases s with
  | nil => simp [splitC]
  | cons d t =>
    rw [splitC]
    cases splitC c t with
    | nil => simp
    | cons h r => by_cases hd : d = c <;> simp [hd]

theorem splitC_prefix_append (c : Char) : ∀ (a b : Str), c ∉ a →
    splitC c (a ++ c :: b) = a :: splitC c b := by
  intro a
  induction a with
  | nil =>
    intro b _
    rw [List.nil_append, splitC]
    cases hs : splitC c b with
    | nil => exact absurd hs (splitC_ne_nil c b)
    | cons h r =>
      dsimp only
      rw [if_pos rfl]
  | cons d t ih =>
    intro b h
    simp only [List.mem_cons] at h
    push_neg at h
    rw [List.cons_append, splitC, ih b h.2]
    dsimp only
    rw [if_neg (Ne.symm h.1)]

theorem splitLinesGo_nil : splitLinesGo [] = [] := by decide

theorem splitLinesGo_cons (line rest : Str) (hl : '\n' ∉ line) :
    splitLinesGo (line ++ '\n' :: rest) = line :: splitLinesGo rest := by
  unfold splitLinesGo
  rw [splitC_prefix_append _ _ _ hl]
  cases hs : splitC '\n' rest with
  | nil => exact absurd hs (splitC_ne_nil _ _)
  | cons h r =>
    by_cases hlast : (h :: r).getLast? = some ([] : Str)
    · rw [if_pos (by rw [List.getLast?_cons_cons]; exact hlast), if_pos hlast]
      rfl
    · rw [if_neg (by rw [List.getLast?_cons_cons]; exact hlast), if_neg hlast]

theorem trimLeft_cons_space (c : Char) (t : Str) (h : isSpaceGo c = true) :
    trimLeft (c :: t) = trimLeft t := by
  simp [trimLeft, List.dropWhile_cons, h]

theorem unquote_raw (v W : Str) (hhash : '#' ∉ v) (hsemi : ';' ∉ v)
    (htl : trimLeft v = v) (htr : trimRight v = v) (hq : v.head? ≠ some '"')
    (hWtr : trimRight W = W) :
    ∃ cmt, unquoteValue (' ' :: (v ++ ("  #".toList ++ W))) = UVRes.ok v cmt := by
  cases v with
  | nil =>
    have htrim : trimSpace (' ' :: (([] : Str) ++ ("  #".toList ++ W))) = '#' :: W := by
      rw [trimSpace, List.nil_append]
      rw [show ("  #".toList ++ W : Str) = ' ' :: ' ' :: '#' :: W from rfl]
      rw [trimLeft_cons_space _ _ (by decide), trimLeft_cons_space _ _ (by decide),
        trimLeft_cons_space _ _ (by decide),
        trimLeft_cons_not_space _ _ (by decide)]
      rw [show ('#' :: W : Str) = ['#'] ++ W from rfl, trimRight_append]
      by_cases hW : trimRight W = []
      · rw [if_pos hW]
        rw [hWtr] at hW
        rw [hW]
        decide
      · rw [if_neg hW, hWtr]
    simp only [unquoteValue, htrim]
    rw [if_pos (by decide)]
    rw [removeTrailingComments]
    rw [show takeUntilC '#' ('#' :: W) = [] from by simp [takeUntilC]]
    exact ⟨_, rfl⟩
  | cons c t =>
    have hcq : c ≠ '"' := by
      intro hcc
      exact hq (by rw [hcc]; rfl)
    have htrim : trimSpace (' ' :: ((c :: t) ++ ("  #".toList ++ W))) =
        c :: (t ++ ("  #".toList ++ W)) := by
      rw [trimSpace, trimLeft_cons_space _ _ (by decide),
        trimLeft_append_of (c :: t) _ htl (by simp)]
      rw [trimRight_append]
      rw [trimRight_fixed_append_hash W hWtr]
      rw [if_neg (by simp)]
      rfl
    simp only [unquoteValue, htrim]
    rw [if_pos hcq]
    rw [removeTrailingComments]
    rw [show (c :: (t ++ ("  #".toList ++ W)) : Str) = (c :: t) ++ ("  #".toList ++ W)
      from rfl]
    rw [takeUntilC_append_not_mem '#' (c :: t) _ hhash]
    rw [show takeUntilC '#' ("  #".toList ++ W) = [' ', ' '] from by simp [takeUntilC]]
    rw [takeUntilC_not_mem ';' _ (by
      intro hm
      rcases List.mem_append.1 hm with h | h
      · exact hsemi h
      · simp at h)]
    rw [trimSpace, trimLeft_append_of (c :: t) _ htl (by simp), trimRight_append]
    rw [if_pos (by decide)]
    rw [htr]
    exact ⟨_, rfl⟩

theorem unquote_quoted (v W : Str) (hbs : '\\' ∉ v) (hWq : '"' ∉ W)
    (hWtr : trimRight W = W) :
    ∃ cmt, unquoteValue (' ' ::
      (('"' :: replaceAll ['"'] ['\\', '"'] (replaceAll ['\n'] ['\\', 'n'] v) ++ ['"']) ++
        ("  #".toList ++ W))) = UVRes.ok v cmt := by
  set E := replaceAll ['"'] ['\\', '"'] (replaceAll ['\n'] ['\\', 'n'] v) with hE
  have htrim : trimSpace (' ' :: (('"' :: E ++ ['"']) ++ ("  #".toList ++ W))) =
      '"' :: ((E ++ ['"']) ++ ("  #".toList ++ W)) := by
    rw [trimSpace, trimLeft_cons_space _ _ (by decide)]
    rw [trimLeft_append_of _ _ ?hpre (by simp)]
    case hpre =>
      rw [List.cons_append]
      exact trimLeft_cons_not_space '"' _ (by decide)
    rw [trimRight_append, trimRight_fixed_append_hash W hWtr]
    rw [if_neg (by simp)]
    rfl
  have hlast : lastIndexC '"' ('"' :: ((E ++ ['"']) ++ ("  #".toList ++ W))) =
      some (E.length + 1) := by
    rw [show ('"' :: ((E ++ ['"']) ++ ("  #".toList ++ W)) : Str)
        = (('"' :: E) ++ ['"']) ++ ("  #".toList ++ W) from rfl]
    rw [lastIndexC_append_right_none '"' _ _ (by
      intro hm
      rcases List.mem_append.1 hm with h | h
      · simp at h
      · exact hWq h)]
    rw [lastIndexC_append_last]
    simp
  have htake : ((('"' :: ((E ++ ['"']) ++ ("  #".toList ++ W))).take (E.length + 1)).drop 1)
      = E := by
    rw [List.take_succ_cons]
    rw [List.append_assoc]
    rw [List.take_left' rfl]
    simp
  simp only [unquoteValue, htrim]
  rw [if_neg (by simp)]
  rw [hlast]
  dsimp only
  rw [if_neg (by omega)]
  rw [htake, hE]
  rw [unesc_esc v hbs]
  exact ⟨_, rfl⟩

theorem stripBOM_id (s : Str) (h1 : s.head? ≠ some '﻿') (h2 : s.head? ≠ some '￾') :
    stripBOM s = s := by
  cases s with
  | nil => rfl
  | cons c t =>
    rw [stripBOM]
    rw [if_neg]
    rintro (hc | hc) <;> subst hc
    · exact h1 rfl
    · exact h2 rfl

theorem trimSpace_eq_imp (v : Str) (h : trimSpace v = v) :
    trimLeft v = v ∧ trimRight v = v := by
  have hsub1 : trimLeft v <:+ v := List.dropWhile_suffix isSpaceGo
  have hsub2 : trimRight (trimLeft v) <+: trimLeft v := List.rdropWhile_prefix _ _
  have hlen : v.length ≤ (trimLeft v).length := by
    have := congrArg List.length h
    rw [trimSpace] at this
    have h2 := List.IsPrefix.length_le hsub2
    omega
  have hleft : trimLeft v = v :=
    List.Sublist.eq_of_length (List.IsSuffix.sublist hsub1)
      (Nat.le_antisymm (List.IsSuffix.sublist hsub1).length_le hlen)
  constructor
  · exact hleft
  · rw [trimSpace, hleft] at h
    exact h

theorem dumpLine_no_newline (st : RegState) (d : FlagDef) (hn : NiceName d.name)
    (hs : SafeVal ((getValue st d.name).getD [])) (hu : '\n' ∉ d.usage) :
    '\n' ∉ dumpLine st d := by
  intro hm
  rw [dumpLine] at hm
  simp only [List.mem_append] at hm
  rcases hm with ((((hm | hm) | hm) | hm) | hm)
  · exact hn.2.2.2.2.1 hm
  · simp at hm
  · exact quoteValue_no_newline _ hs.1 hm
  · simp at hm
  · exact escapeUsage_no_newline _ hu hm

theorem splitLines_dumpFlags (st : RegState) (excl : List Str) :
    ∀ defs : List FlagDef,
    (∀ d ∈ defs, NiceName d.name ∧ SafeVal ((getValue st d.name).getD []) ∧
      '\n' ∉ d.usage) →
    splitLinesGo (dumpFlags defs st excl) =
      (defs.filter (fun d => !(decide (d.name ∈ excl)))).map (dumpLine st) := by
  intro defs
  induction defs with
  | nil =>
    intro _
    simp [dumpFlags, splitLinesGo_nil]
  | cons d t ih =>
    intro h
    have hd := h d (List.mem_cons_self d t)
    have ht := fun d2 hd2 => h d2 (List.mem_cons_of_mem _ hd2)
    rw [dumpFlags]
    by_cases he : d.name ∈ excl
    · rw [if_pos he, List.nil_append, ih ht, List.filter_cons]
      rw [if_neg (by simp [he])]
    · rw [if_neg he]
      have hchunk : (d.name ++ " = ".toList ++
            quoteValue ((getValue st d.name).getD []) ++ "  # ".toList ++
            escapeUsage d.usage ++ ['\n']) ++ dumpFlags t st excl =
          dumpLine st d ++ ('\n' :: dumpFlags t st excl) := by
        rw [dumpLine]
        simp [List.append_assoc]
      rw [hchunk, splitLinesGo_cons _ _ (dumpLine_no_newline st d hd.1 hd.2.1 hd.2.2),
        ih ht, List.filter_cons]
      rw [if_pos (by simp [he])]
      rfl

theorem dump_line_parse (st : RegState) (d : FlagDef) (hn : NiceName d.name)
    (hs : SafeVal ((getValue st d.name).getD [])) :
    ∃ cmt,
      stripBOM (dumpLine st d) = dumpLine st d ∧
      strHasPre "#import ".toList (trimSpace (dumpLine st d)) = false ∧
      ¬(trimSpace (dumpLine st d) = [] ∨
        (trimSpace (dumpLine st d)).head? = some '[') ∧
      ¬((trimSpace (dumpLine st d)).head? = some '#' ∨
        (trimSpace (dumpLine st d)).head? = some ';') ∧
      splitEq '=' (trimSpace (dumpLine st d)) = some (d.name ++ [' '],
        ' ' :: (quoteValue ((getValue st d.name).getD []) ++
          ("  #".toList ++ trimRight (' ' :: escapeUsage d.usage)))) ∧
      trimSpace (d.name ++ [' ']) = d.name ∧
      unquoteValue (' ' :: (quoteValue ((getValue st d.name).getD []) ++
          ("  #".toList ++ trimRight (' ' :: escapeUsage d.usage)))) =
        UVRes.ok ((getValue st d.name).getD []) cmt := by
  obtain ⟨hne, htl, htr, heq, hnl, hsuf, hh1, hh2, hh3, hb1, hb2⟩ := hn
  obtain ⟨c, t, hct⟩ : ∃ c t, d.name = c :: t := by
    cases hcase : d.name with
    | nil => exact absurd hcase hne
    | cons c t => exact ⟨c, t, rfl⟩
  have hshape := trimSpace_dump_shape d.name
    (quoteValue ((getValue st d.name).getD [])) (escapeUsage d.usage) hne htl
  have hW : trimRight (trimRight (' ' :: escapeUsage d.usage)) =
      trimRight (' ' :: escapeUsage d.usage) := trimRight_idem _
  have hWq : '"' ∉ trimRight (' ' :: escapeUsage d.usage) := by
    intro hm
    have hpre := List.rdropWhile_prefix isSpaceGo (' ' :: escapeUsage d.usage)
    have := hpre.subset hm
    rcases List.mem_cons.1 this with h | h
    · exact absurd h.symm (by decide)
    · exact escapeUsage_no_quote d.usage h
  have hheadTrim : (trimSpace (dumpLine st d)).head? = some c := by
    rw [dumpLine, hshape, hct]
    rfl
  have hcmt : ∃ cmt, unquoteValue (' ' :: (quoteValue ((getValue st d.name).getD []) ++
      ("  #".toList ++ trimRight (' ' :: escapeUsage d.usage)))) =
      UVRes.ok ((getValue st d.name).getD []) cmt := by
    by_cases hg : ¬containsAnyC ((getValue st d.name).getD []) "\n#;".toList = true ∧
        trimSpace ((getValue st d.name).getD []) = (getValue st d.name).getD []
    · rw [quoteValue_raw _ hg]
      have hna : ∀ x, x ∈ "\n#;".toList → x ∉ (getValue st d.name).getD [] := by
        intro x hx hmem
        exact hg.1 ((containsAnyC_iff _ _).2 ⟨x, hmem, hx⟩)
      obtain ⟨htl2, htr2⟩ := trimSpace_eq_imp _ hg.2
      exact unquote_raw _ _ (hna '#' (by decide)) (hna ';' (by decide)) htl2 htr2
        (hs.2 hg) hW
    · rw [quoteValue_quoted _ hs.1 hg]
      exact unquote_quoted _ _ hs.1 hWq hW
  obtain ⟨cmt, hcmt⟩ := hcmt
  refine ⟨cmt, ?_, ?_, ?_, ?_, ?_, trimSpace_name_space d.name hne htl htr, hcmt⟩
  · apply stripBOM_id
    · rw [dumpLine, hct]
      exact fun hcon => hb1 (by rw [hct]; simpa using hcon)
    · rw [dumpLine, hct]
      exact fun hcon => hb2 (by rw [hct]; simpa using hcon)
  · rw [dumpLine, hshape, hct]
    exact strHasPre_cons_false '#' _ c _
      (fun hcon => hh1 (by rw [hct, ← hcon]; rfl))
  · rintro (hcon | hcon)
    · rw [dumpLine, hshape, hct] at hcon
      simp at hcon
    · rw [hheadTrim] at hcon
      exact hh3 (by rw [hct]; simpa using hcon)
  · rintro (hcon | hcon)
    · rw [hheadTrim] at hcon
      exact hh1 (by rw [hct]; simpa using hcon)
    · rw [hheadTrim] at hcon
      exact hh2 (by rw [hct]; simpa using hcon)
  · rw [dumpLine, hshape]
    rw [show (d.name ++ " = ".toList ++ quoteValue ((getValue st d.name).getD []) ++
        "  #".toList ++ trimRight (' ' :: escapeUsage d.usage) : Str)
        = (d.name ++ [' ']) ++ '=' ::
          (' ' :: (quoteValue ((getValue st d.name).getD []) ++
            ("  #".toList ++ trimRight (' ' :: escapeUsage d.usage))))
        from by simp [List.append_assoc]]
    apply splitEq_append
    intro hm
    rcases List.mem_append.1 hm with h | h
    · exact heq h
    · simp at h

theorem processLinesF_dump (gac : Str → PRes (List flagArg)) (env : ParseEnv)
    (cp : Str) (st : RegState) :
    ∀ (ds : List FlagDef) (lineNum : Nat) (args : List flagArg),
    (∀ d ∈ ds, NiceName d.name ∧ SafeVal ((getValue st d.name).getD [])) →
    ∃ out, processLinesF gac env cp lineNum [] emptyFA (ds.map (dumpLine st)) args =
        PRes.ok out ∧
      out.map (fun a => (a.Key, a.Value)) =
        args.map (fun a => (a.Key, a.Value)) ++
          ds.map (fun d => (d.name, (getValue st d.name).getD [])) := by
  intro ds
  induction ds with
  | nil =>
    intro lineNum args _
    refine ⟨args, ?_, by simp⟩
    simp [processLinesF, emptyFA]
  | cons d t ih =>
    intro lineNum args h
    have hd := h d (List.mem_cons_self d t)
    have ht := fun d2 hd2 => h d2 (List.mem_cons_of_mem _ hd2)
    obtain ⟨cmt, hstrip, himp, hc1, hc2, hsplit, hkey, huq⟩ :=
      dump_line_parse st d hd.1 hd.2
    rw [List.map_cons]
    simp only [processLinesF]
    have hif : (if lineNum + 1 = 1 then stripBOM (dumpLine st d) else dumpLine st d) =
        dumpLine st d := by
      by_cases h1 : lineNum + 1 = 1
      · rw [if_pos h1, hstrip]
      · rw [if_neg h1]
    rw [hif]
    rw [if_neg (by rw [himp]; exact Bool.false_ne_true)]
    rw [if_neg hc1, if_neg hc2, hsplit]
    dsimp only
    rw [hkey, huq]
    dsimp only
    simp only [if_true]
    rw [if_pos (by rw [hd.1.2.2.2.2.2.1]; exact Bool.false_ne_true)]
    rw [if_neg (fun hc => hc rfl)]
    obtain ⟨out, hout, hmap⟩ := ih (lineNum + 1) (args ++
      [⟨d.name, (getValue st d.name).getD [], cp, lineNum + 1, cmt⟩]) ht
    refine ⟨out, hout, ?_⟩
    rw [hmap]
    simp

theorem lookupFlag_self (defs : List FlagDef)
    (hnd : (defs.map (fun d => d.name)).Nodup) :
    ∀ d ∈ defs, lookupFlag defs d.name = some d := by
  induction defs with
  | nil => intro d hd; simp at hd
  | cons e t ih =>
    rw [List.map_cons, List.nodup_cons] at hnd
    intro d hd
    rcases List.mem_cons.1 hd with hd | hd
    · subst hd
      simp [lookupFlag]
    · have hne : e.name ≠ d.name := by
        intro hc
        exact hnd.1 (hc ▸ List.mem_map_of_mem (fun x => x.name) hd)
      rw [lookupFlag, if_neg hne]
      exact ih hnd.2 d hd

theorem resolvedKeys_self (cfg : MergeCfg) :
    ∀ args : List flagArg,
    (∀ a ∈ args, ∃ d, lookupFlag cfg.defs a.Key = some d) →
    resolvedKeys cfg args = args.map (fun a => a.Key) := by
  intro args
  induction args with
  | nil => intro _; rfl
  | cons a rest ih =>
    intro h
    obtain ⟨d, hd⟩ := h a (List.mem_cons_self a rest)
    have hres : resolveFlag cfg a.Key = some (a.Key, d) := by
      simp [resolveFlag, hd]
    rw [resolvedKeys_cons_some cfg a rest a.Key d hres, List.map_cons,
      ih (fun a2 ha2 => h a2 (List.mem_cons_of_mem _ ha2))]

theorem mergeLoop_frame_unresolved (cfg : MergeCfg) (missing : List Str) :
    ∀ (args : List flagArg) (ofv : List (Str × Str)) (ok : Bool) (st : RegState)
      (n : Str), n ∉ resolvedKeys cfg args →
    getValue (mergeLoop cfg missing args ofv ok st).2.2 n = getValue st n := by
  intro args
  induction args with
  | nil => intro ofv ok st n _; rfl
  | cons a rest ih =>
    intro ofv ok st n hn
    cases hres : resolveFlag cfg a.Key with
    | none =>
      rw [resolvedKeys_cons_none cfg a rest hres] at hn
      simp only [mergeLoop, hres]
      exact ih ofv _ st n hn
    | some pr =>
      obtain ⟨key, d⟩ := pr
      rw [resolvedKeys_cons_some cfg a rest key d hres, List.mem_cons] at hn
      push_neg at hn
      simp only [mergeLoop, hres]
      by_cases hkey : key ∈ missing
      · rw [if_pos hkey]
        by_cases heq : (getValue st key).getD [] = a.Value
        · rw [if_pos heq]
          exact ih ofv ok st n hn.2
        · rw [if_neg heq]
          cases hsv : d.setVal a.Value with
          | none => exact ih ofv false st n hn.2
          | some newV =>
            dsimp only
            by_cases hnv : (getValue st key).getD [] ≠ newV
            · rw [if_pos hnv, ih _ ok _ n hn.2,
                getValue_setValueRaw_ne st key newV n hn.1]
            · rw [if_neg hnv, ih _ ok _ n hn.2,
                getValue_setValueRaw_ne st key newV n hn.1]
      · rw [if_neg hkey]
        exact ih ofv ok st n hn.2

theorem mergeLoop_applies (cfg : MergeCfg) (missing : List Str) :
    ∀ (args : List flagArg) (ofv : List (Str × Str)) (st : RegState),
    (∀ a ∈ args, ∃ d, lookupFlag cfg.defs a.Key = some d ∧ a.Key ∈ missing ∧
      d.setVal a.Value = some a.Value ∧ ∃ w, getValue st a.Key = some w) →
    (args.map (fun a => a.Key)).Nodup →
    (mergeLoop cfg missing args ofv true st).2.1 = true ∧
    ∀ a ∈ args,
      getValue (mergeLoop cfg missing args ofv true st).2.2 a.Key = some a.Value := by
  intro args
  induction args with
  | nil => intro ofv st _ _; exact ⟨rfl, fun a ha => absurd ha (List.not_mem_nil a)⟩
  | cons a rest ih =>
    intro ofv st h hnd
    rw [List.map_cons, List.nodup_cons] at hnd
    obtain ⟨d, hd, hmiss, hset, w, hw⟩ := h a (List.mem_cons_self a rest)
    have hrest := fun a2 ha2 => h a2 (List.mem_cons_of_mem _ ha2)
    have hres : resolveFlag cfg a.Key = some (a.Key, d) := by
      simp [resolveFlag, hd]
    have hnotres : a.Key ∉ resolvedKeys cfg rest := by
      rw [resolvedKeys_self cfg rest
        (fun a2 ha2 => ⟨(hrest a2 ha2).choose, (hrest a2 ha2).choose_spec.1⟩)]
      exact hnd.1
    simp only [mergeLoop, hres]
    rw [if_pos hmiss]
    by_cases heq : (getValue st a.Key).getD [] = a.Value
    · rw [if_pos heq]
      obtain ⟨hok, happ⟩ := ih ofv st hrest hnd.2
      refine ⟨hok, ?_⟩
      intro a2 ha2
      rcases List.mem_cons.1 ha2 with ha2 | ha2
      · subst ha2
        rw [mergeLoop_frame_unresolved cfg missing rest ofv true st a2.Key hnotres,
          hw]
        rw [hw] at heq
        simp only [Option.getD_some] at heq
        rw [heq]
      · exact happ a2 ha2
    · rw [if_neg heq, hset]
      dsimp only
      rw [if_pos (by rw [hw]; simpa [hw] using heq)]
      have hrest1 : ∀ a2 ∈ rest, ∃ d2, lookupFlag cfg.defs a2.Key = some d2 ∧
          a2.Key ∈ missing ∧ d2.setVal a2.Value = some a2.Value ∧
          ∃ w2, getValue (setValueRaw st a.Key a.Value) a2.Key = some w2 := by
        intro a2 ha2
        obtain ⟨d2, hd2, hm2, hs2, w2, hw2⟩ := hrest a2 ha2
        refine ⟨d2, hd2, hm2, hs2, w2, ?_⟩
        rw [getValue_setValueRaw_ne st a.Key a.Value a2.Key
          (fun hc => hnd.1 (hc ▸ List.mem_map_of_mem (fun x => x.Key) ha2)), hw2]
      obtain ⟨hok, happ⟩ := ih _ (setValueRaw st a.Key a.Value) hrest1 hnd.2
      refine ⟨hok, ?_⟩
      intro a2 ha2
      rcases List.mem_cons.1 ha2 with ha2 | ha2
      · subst ha2
        rw [mergeLoop_frame_unresolved cfg missing rest _ true _ a2.Key hnotres,
          getValue_setValueRaw_self]
      · exact happ a2 ha2

theorem getMissingFlags_empty_actual (defs : List FlagDef) (st : RegState)
    (h : st.actual = []) (n : Str) (hn : n ∈ defs.map (fun d => d.name)) :
    n ∈ getMissingFlags defs st := by
  rw [getMissingFlags, List.mem_filter]
  exact ⟨hn, by simp [h]⟩

/-- C6 counterexample: the round trip is not the identity for every registry
state.  When q holds the three-character value "a" (with the double
quotes), quoteValue emits it bare, the re-parse unquotes it, and after the
dump is parsed and merged into the freshly-defaulted registry q holds the
one-character value a; in particular unquoteValue applied to quoteValue of
that string does not return the string. -/
theorem dump_roundtrip_value_changed :
    getValue stQdump "q".toList = some "\"a\"".toList ∧
    quoteValue "\"a\"".toList = "\"a\"".toList ∧
    unquoteValue (quoteValue "\"a\"".toList) = UVRes.ok "a".toList [] ∧
    reparsedQValue = some "a".toList ∧
    "a".toList ≠ "\"a\"".toList := by
  decide

/-- C6 amended: for every registry state whose flag names are round-trip-able
(nonempty, untrimmable, free of =, newline, comment, section, BOM and
multi-line markers) and distinct, whose usage strings are newline-free, and
whose non-excluded dump-time values are backslash-free, not
quote-prefixed-when-bare, and re-accepted verbatim by the registry, parsing
the dump of all flags not in the exclusion set as a config source and
merging it into a freshly-defaulted registry (no flag explicitly set, every
flag holding some value) succeeds and gives every non-excluded flag the
same string value it had at dump time. -/
theorem dump_roundtrip_safe (cfg : MergeCfg) (env : ParseEnv) (st stF : RegState)
    (excl : List Str) (p : Str) (fuel : Nat)
    (hopen : env.openF p = OpenRes.ok (splitLinesGo (dumpFlags cfg.defs st excl)))
    (hnames : ∀ d ∈ cfg.defs, NiceName d.name)
    (hnodup : (cfg.defs.map (fun d => d.name)).Nodup)
    (husage : ∀ d ∈ cfg.defs, '\n' ∉ d.usage)
    (hsafe : ∀ d ∈ cfg.defs, SafeVal ((getValue st d.name).getD []))
    (hcanon : ∀ d ∈ cfg.defs,
      d.setVal ((getValue st d.name).getD []) = some ((getValue st d.name).getD []))
    (hfresh : ∀ d ∈ cfg.defs, (getValue stF d.name).isSome = true)
    (hactual : stF.actual = []) :
    ∃ out, getArgsFromConfig env (fuel + 1) [] p = PRes.ok out ∧
      out.map (fun a => (a.Key, a.Value)) = dumpPairs cfg.defs st excl ∧
      (mergePass cfg out stF).2.1 = true ∧
      ∀ d ∈ cfg.defs, d.name ∉ excl →
        getValue (mergePass cfg out stF).2.2 d.name =
          some ((getValue st d.name).getD []) := by
  have hlines : splitLinesGo (dumpFlags cfg.defs st excl) =
      (cfg.defs.filter (fun d => !(decide (d.name ∈ excl)))).map (dumpLine st) :=
    splitLines_dumpFlags st excl cfg.defs
      (fun d hd => ⟨hnames d hd, hsafe d hd, husage d hd⟩)
  set ds := cfg.defs.filter (fun d => !(decide (d.name ∈ excl))) with hds
  have hdsub : ∀ d ∈ ds, d ∈ cfg.defs := fun d hd => (List.mem_filter.1 hd).1
  obtain ⟨out, hout, hmap⟩ := processLinesF_dump
    (getArgsFromConfig env fuel [p]) env p st ds 0 []
    (fun d hd => ⟨hnames d (hdsub d hd), hsafe d (hdsub d hd)⟩)
  have hmap2 : out.map (fun a => (a.Key, a.Value)) =
      ds.map (fun d => (d.name, (getValue st d.name).getD [])) := by
    simpa using hmap
  have hparse : getArgsFromConfig env (fuel + 1) [] p = PRes.ok out := by
    rw [getArgsFromConfig]
    rw [if_pos (show checkImportRecursion [] p = true from rfl)]
    rw [hopen, hlines]
    exact hout
  have hargs : ∀ a ∈ out, ∃ d2, lookupFlag cfg.defs a.Key = some d2 ∧
      a.Key ∈ getMissingFlags cfg.defs stF ∧ d2.setVal a.Value = some a.Value ∧
      ∃ w, getValue stF a.Key = some w := by
    intro a ha
    have hmem : (a.Key, a.Value) ∈ out.map (fun a => (a.Key, a.Value)) :=
      List.mem_map_of_mem _ ha
    rw [hmap2] at hmem
    obtain ⟨d, hdds, hdeq⟩ := List.mem_map.1 hmem
    have hd : d ∈ cfg.defs := hdsub d hdds
    have hk : d.name = a.Key := congrArg Prod.fst hdeq
    have hv : (getValue st d.name).getD [] = a.Value := congrArg Prod.snd hdeq
    refine ⟨d, ?_, ?_, ?_, ?_⟩
    · rw [← hk]
      exact lookupFlag_self cfg.defs hnodup d hd
    · rw [← hk]
      exact getMissingFlags_empty_actual cfg.defs stF hactual d.name
        (List.mem_map_of_mem _ hd)
    · rw [← hv]
      exact hcanon d hd
    · rw [← hk]
      exact Option.isSome_iff_exists.1 (hfresh d hd)
  have hkeys : out.map (fun a => a.Key) = ds.map (fun d => d.name) := by
    have h1 : out.map (fun a => a.Key) =
        (out.map (fun a => (a.Key, a.Value))).map Prod.fst := by
      rw [List.map_map]
      rfl
    rw [h1, hmap2, List.map_map]
    rfl
  have hndout : (out.map (fun a => a.Key)).Nodup := by
    rw [hkeys, hds]
    exact List.Nodup.sublist ((List.filter_sublist cfg.defs).map (fun d => d.name))
      hnodup
  obtain ⟨hok, happ⟩ :=
    mergeLoop_applies cfg (getMissingFlags cfg.defs stF) out [] stF hargs hndout
  have hmp1 : (mergePass cfg out stF).2.1 = true := by
    simp only [mergePass]
    rw [if_pos hok]
  have hmp2 : (mergePass cfg out stF).2.2 =
      (mergeLoop cfg (getMissingFlags cfg.defs stF) out [] true stF).2.2 := by
    simp only [mergePass]
    rw [if_pos hok]
  refine ⟨out, hparse, by rw [hmap2, dumpPairs, ← hds], hmp1, ?_⟩
  intro d hd hexcl
  have hdds : d ∈ ds := by
    rw [hds]
    exact List.mem_filter.2 ⟨hd, by simp [hexcl]⟩
  have hmemkv : (d.name, (getValue st d.name).getD []) ∈
      out.map (fun a => (a.Key, a.Value)) := by
    rw [hmap2]
    exact List.mem_map_of_mem _ hdds
  obtain ⟨a, ha, haeq⟩ := List.mem_map.1 hmemkv
  have h1 : a.Key = d.name := congrArg Prod.fst haeq
  have h2 : a.Value = (getValue st d.name).getD [] := congrArg Prod.snd haeq
  rw [hmp2, ← h2, ← h1]
  exact happ a ha

/-- C6 amended witness: the dump of a registry holding alpha = hello world
(dumped bare) and beta = x; y (dumped quoted) parses and merges into a
freshly-defaulted registry, restoring both values exactly. -/
theorem dump_roundtrip_safe_w :
    stRTf.actual = [] ∧
    ∃ out, getArgsFromConfig envRT 1 [] "/rt".toList = PRes.ok out ∧
      out.map (fun a => (a.Key, a.Value)) = dumpPairs cfgRT.defs stRT [] ∧
      (mergePass cfgRT out stRTf).2.1 = true ∧
      ∀ d ∈ cfgRT.defs, d.name ∉ ([] : List Str) →
        getValue (mergePass cfgRT out stRTf).2.2 d.name =
          some ((getValue stRT d.name).getD []) :=
  ⟨rfl, dump_roundtrip_safe cfgRT envRT stRT stRTf [] "/rt".toList 0
    (by decide) (by decide) (by decide) (by decide) (by decide) (by decide)
    (by decide) rfl⟩

/-- C5 amended: only the hash marker introduces imports.  For every logical
line whose trimmed form begins with the exact prefix #import followed by a
space, whenever the quoted path unquotes, resolves through combinePath and
recursively parses to a directive sequence, the parser splices that full
sequence into the output at that point, in place, and continues with the
remaining lines; for every directive placed after the splice point that
resolves to a missing flag with a registry-accepted value, the merge gives
its flag that later value, overriding any earlier imported directive for
the same key; and every logical line whose trimmed form begins with the ;
marker — in particular ;import lines — is an ordinary comment: the parser
records its text as the pending comment and splices nothing, leaving the
directive list unchanged.  Concretely, the /main source importing /base
parses to the spliced sequence args5 and merging it gives flag2 the
overriding value foobar. -/
theorem hash_import_spliced :
    (∀ (gac : Str → PRes (List flagArg)) (env : ParseEnv) (cp : Str) (lineNum : Nat)
      (comment : Str) (mfa : flagArg) (line0 : Str) (rest : List Str)
      (args : List flagArg) (line impPath0 cmt impPath : Str)
      (impArgs : List flagArg),
      trimSpace (if lineNum + 1 = 1 then stripBOM line0 else line0) = line →
      strHasPre "#import ".toList line = true →
      unquoteValue (line.drop 7) = UVRes.ok impPath0 cmt →
      combinePath env.urlResolve env.pathJoinDir cp impPath0 = some impPath →
      gac impPath = PRes.ok impArgs →
      processLinesF gac env cp lineNum comment mfa (line0 :: rest) args =
        processLinesF gac env cp (lineNum + 1) comment mfa rest (args ++ impArgs)) ∧
    (∀ (cfg : MergeCfg) (missing : List Str) (args1 : List flagArg)
      (ofv : List (Str × Str)) (ok : Bool) (st : RegState) (a : flagArg)
      (key : Str) (d : FlagDef),
      resolveFlag cfg a.Key = some (key, d) → key ∈ missing →
      d.setVal a.Value = some a.Value → (∃ w, getValue st key = some w) →
      getValue (mergeLoop cfg missing (args1 ++ [a]) ofv ok st).2.2 key =
        some a.Value) ∧
    (∀ (gac : Str → PRes (List flagArg)) (env : ParseEnv) (cp : Str) (lineNum : Nat)
      (comment : Str) (mfa : flagArg) (line0 : Str) (rest : List Str)
      (args : List flagArg) (line : Str),
      trimSpace (if lineNum + 1 = 1 then stripBOM line0 else line0) = line →
      line.head? = some ';' →
      processLinesF gac env cp lineNum comment mfa (line0 :: rest) args =
        processLinesF gac env cp (lineNum + 1) (line.drop 1) mfa rest args) ∧
    getArgsFromConfig env5 2 [] "/main".toList = PRes.ok args5 ∧
    getValue (mergePass cfg5 args5 st5).2.2 "flag2".toList = some "foobar".toList := by
  refine ⟨?_, ?_, ?_, by decide, by decide⟩
  · intro gac env cp lineNum comment mfa line0 rest args line impPath0 cmt impPath
      impArgs hline hpre huq hcomb hgac
    simp only [processLinesF]
    rw [hline, if_pos hpre, huq]
    dsimp only
    rw [hcomb]
    dsimp only
    rw [hgac]
  · intro cfg missing args1 ofv ok st a key d hres hkey hset hw
    rw [mergeLoop_append cfg missing args1 [a] ofv ok st]
    obtain ⟨w, hw2⟩ := mergeLoop_value_isSome cfg missing args1 ofv ok st key hw
    simp only [mergeLoop, hres]
    rw [if_pos hkey]
    by_cases heq : (getValue (mergeLoop cfg missing args1 ofv ok st).2.2 key).getD []
        = a.Value
    · rw [if_pos heq]
      show getValue (mergeLoop cfg missing args1 ofv ok st).2.2 key = some a.Value
      rw [hw2] at heq ⊢
      simp only [Option.getD_some] at heq
      rw [heq]
    · rw [if_neg heq, hset]
      dsimp only
      exact getValue_setValueRaw_self _ key a.Value
  · intro gac env cp lineNum comment mfa line0 rest args line hline hhead
    obtain ⟨t, hlt⟩ : ∃ t, line = ';' :: t := by
      cases hcase : line with
      | nil => rw [hcase] at hhead; simp at hhead
      | cons c t =>
        rw [hcase] at hhead
        simp only [List.head?_cons, Option.some.injEq] at hhead
        exact ⟨t, by rw [hhead]⟩
    subst hlt
    simp only [processLinesF]
    rw [hline]
    have hpre : strHasPre "#import ".toList (';' :: t) = false :=
      strHasPre_cons_false '#' "import ".toList ';' t (by decide)
    rw [if_neg (by rw [hpre]; exact Bool.false_ne_true)]
    have hc1 : ¬((';' :: t : Str) = [] ∨ (';' :: t).head? = some '[') := by
      rintro (h | h)
      · exact List.cons_ne_nil ';' t h
      · simp at h
    rw [if_neg hc1]
    have hc2 : (';' :: t : Str).head? = some '#' ∨ (';' :: t : Str).head? = some ';' :=
      Or.inr rfl
    rw [if_pos hc2]

/-- C5 witness: the splice equation applied to the #import line of /main —
one parser step replaces the import line by the two directives of /base. -/
theorem hash_import_spliced_w :
    strHasPre "#import ".toList (trimSpace "#import \"/base\"".toList) = true ∧
    processLinesF (getArgsFromConfig env5 1 ["/main".toList]) env5 "/main".toList 0
        [] emptyFA ["#import \"/base\"".toList, "flag2=foobar".toList] [] =
      processLinesF (getArgsFromConfig env5 1 ["/main".toList]) env5 "/main".toList 1
        [] emptyFA ["flag2=foobar".toList]
        ([] ++ [⟨"flag1".toList, "value1".toList, "/base".toList, 1, []⟩,
          ⟨"flag2".toList, "value2".toList, "/base".toList, 2, []⟩]) :=
  ⟨by decide, hash_import_spliced.1 (getArgsFromConfig env5 1 ["/main".toList]) env5
    "/main".toList 0 [] emptyFA "#import \"/base\"".toList ["flag2=foobar".toList]
    [] (trimSpace "#import \"/base\"".toList) "/base".toList [] "/base".toList
    [⟨"flag1".toList, "value1".toList, "/base".toList, 1, []⟩,
      ⟨"flag2".toList, "value2".toList, "/base".toList, 2, []⟩]
    rfl (by decide) (by decide) (by decide) (by decide)⟩

end Iniflags
